import Mathlib

/-!
Verification development for the libgmldc decompiler core
(src/cfg.rs, src/lib.rs, src/ast.rs).

The Rust code is shallowly embedded: `HashMap`s become association lists
and `HashSet`s duplicate-free lists, both kept in insertion order (one
admissible iteration order — Rust leaves the enumeration order of both
containers unspecified), fallible code returns `Except`, and a Rust `panic!` /
`unwrap()` failure is modelled by the distinguished error `DcError.panic`
(an uncontrolled abort, as opposed to a recoverable `Err`).  Loops whose
termination is not structural take an explicit fuel argument; `none`
means the fuel ran out.
-/

set_option maxRecDepth 4000

namespace Libgmldc

/-! ## Association-list maps

`ControlFlowGraph` stores its nodes in a `HashMap<NodeRef, ControlFlowNode>`.
We model the map as an association list kept in insertion order. -/

/-- First-match lookup, mirroring `HashMap::get`. -/
def lookupN {α : Type} : List (Nat × α) → Nat → Option α
  | [], _ => none
  | (k, v) :: rest, key => if k = key then some v else lookupN rest key

/-- Update the value stored at a key (no-op when the key is absent),
mirroring mutation through an occupied `Entry` or `HashMap::get_mut`. -/
def updateN {α : Type} : List (Nat × α) → Nat → (α → α) → List (Nat × α)
  | [], _, _ => []
  | (a, b) :: rest, key, f =>
    if a = key then (a, f b) :: updateN rest key f
    else (a, b) :: updateN rest key f

/-- Remove the entry at a key, mirroring `HashMap::remove`. -/
def eraseN {α : Type} : List (Nat × α) → Nat → List (Nat × α)
  | [], _ => []
  | (k, v) :: rest, key => if k = key then rest else (k, v) :: eraseN rest key

/-! ## The control-flow-graph container (src/cfg.rs)

`NodeRef` is a newtype over `usize`; we use `Nat` directly.  A
`HashSet<NodeRef>` is modelled as a duplicate-free list kept in insertion
order (one admissible iteration order for a `HashSet`, whose enumeration
order Rust leaves unspecified). -/

/-- `HashSet::insert`: add the element if absent. -/
def insertS (l : List Nat) (x : Nat) : List Nat :=
  if x ∈ l then l else l ++ [x]

/-- `HashSet::remove`: drop the element. -/
def eraseS : List Nat → Nat → List Nat
  | [], _ => []
  | y :: ys, x => if y = x then ys else y :: eraseS ys x

/-- `ControlFlowNode<Meta>` (src/cfg.rs): own key, child set, parent set,
metadata. -/
structure Node (M : Type) where
  data : Nat
  children : List Nat
  parents : List Nat
  meta : M
deriving DecidableEq

/-- `ControlFlowGraph<Meta>` (src/cfg.rs): node map plus optional root. -/
structure Cfg (M : Type) where
  nodes : List (Nat × Node M)
  root : Option Nat
deriving DecidableEq

/-- `ControlFlowGraph::new_rootless`. -/
def Cfg.newRootless (M : Type) : Cfg M := ⟨[], none⟩

/-- `ControlFlowGraph::has`. -/
def Cfg.has {M : Type} (g : Cfg M) (data : Nat) : Bool :=
  (lookupN g.nodes data).isSome

/-- `ControlFlowGraph::len`. -/
def Cfg.len {M : Type} (g : Cfg M) : Nat := g.nodes.length

/-- `ControlFlowGraph::iter`: the node keys, in our model in insertion
order (Rust's `HashMap` iterates in an unspecified order). -/
def Cfg.keys {M : Type} (g : Cfg M) : List Nat := g.nodes.map Prod.fst

/-- `ControlFlowGraph::children_of`; `none` models the panic on a missing
node (`&self.nodes[&node]`). -/
def Cfg.childrenOf {M : Type} (g : Cfg M) (node : Nat) : Option (List Nat) :=
  (lookupN g.nodes node).map Node.children

/-- `ControlFlowGraph::parents_of`; `none` models the panic on a missing
node. -/
def Cfg.parentsOf {M : Type} (g : Cfg M) (node : Nat) : Option (List Nat) :=
  (lookupN g.nodes node).map Node.parents

/-- `ControlFlowGraph::meta_of`; `none` models the panic on a missing
node. -/
def Cfg.metaOf {M : Type} (g : Cfg M) (node : Nat) : Option M :=
  (lookupN g.nodes node).map Node.meta

/-- `ControlFlowGraph::insert` (src/cfg.rs lines 101-133).  On an empty
graph `this` becomes the root and `parent` is ignored; otherwise the
`this` entry is updated (parent edge added on the `this` side, metadata
overwritten) or freshly inserted, and then `parent`'s child set gains
`this`.  The final `self.nodes.get_mut(&parent).unwrap()` panics when
`parent` is not a member; `none` models that panic. -/
def Cfg.insert {M : Type} (g : Cfg M) (parent this : Nat) (meta : M) : Option (Cfg M) :=
  if g.nodes.isEmpty then
    some ⟨[(this, ⟨this, [], [], meta⟩)], some this⟩
  else
    let nodes1 :=
      match lookupN g.nodes this with
      | some _ => updateN g.nodes this fun n =>
          { n with parents := insertS n.parents parent, meta := meta }
      | none => g.nodes ++ [(this, ⟨this, [], [parent], meta⟩)]
    match lookupN nodes1 parent with
    | none => none
    | some _ =>
      some ⟨updateN nodes1 parent fun n =>
        { n with children := insertS n.children this }, g.root⟩

/-- `ControlFlowGraph::insert_parentless` (src/cfg.rs lines 70-99): add or
update a node's metadata without touching any edge; on an empty graph the
node becomes the root. -/
def Cfg.insertParentless {M : Type} (g : Cfg M) (this : Nat) (meta : M) : Cfg M :=
  if g.nodes.isEmpty then
    ⟨[(this, ⟨this, [], [], meta⟩)], some this⟩
  else
    match lookupN g.nodes this with
    | some _ => ⟨updateN g.nodes this fun n => { n with meta := meta }, g.root⟩
    | none => ⟨g.nodes ++ [(this, ⟨this, [], [], meta⟩)], g.root⟩

/-- One neighbour clean-up step of `ControlFlowGraph::remove`: update the
node at key `k` with `f`, panicking (`none`) when the key is absent
(`self.nodes.get_mut(..).unwrap()`). -/
def updAllStep {M : Type} (f : Node M → Node M) (acc : List (Nat × Node M))
    (k : Nat) : Option (List (Nat × Node M)) :=
  match lookupN acc k with
  | none => none
  | some _ => some (updateN acc k f)

/-- `ControlFlowGraph::remove` (src/cfg.rs lines 135-143): take the node
out of the map, then delete it from every child's parent set and every
parent's child set.  Each `unwrap` on a missing map entry is a panic,
modelled by `none` (in particular, removing a node that has itself as a
child panics, because the node was already taken out of the map).  Rust
iterates the neighbour `HashSet`s in an unspecified order; we iterate in
the model's stored order — the per-key updates commute, so any order
produces the same map. -/
def Cfg.remove {M : Type} (g : Cfg M) (this : Nat) : Option (Cfg M) :=
  match lookupN g.nodes this with
  | none => none
  | some n => do
    let nodes0 := eraseN g.nodes this
    let nodes1 ← n.children.foldlM
      (updAllStep fun nc => { nc with parents := eraseS nc.parents this }) nodes0
    let nodes2 ← n.parents.foldlM
      (updAllStep fun np => { np with children := eraseS np.children this }) nodes1
    some ⟨nodes2, g.root⟩

/-! ## The instruction stream (external `libgm` crate)

The bytecode format, instruction decoding and sizing live in the external
`libgm` disassembler, which is out of this repository's scope (spec §1,
§6).  Only the constructors that src/lib.rs matches on are distinguished;
every other `libgm` instruction falls into the `match` wildcards of
src/lib.rs, which the single constructor `OtherInstr` models. -/

/-- `libgm` `DataType`: operand data-type tags carried by arithmetic and
conversion instructions.  src/lib.rs only distinguishes `Boolean` and the
integer tags; the rest hit wildcards. -/
inductive DataType
  | Double | Float | Int32 | Int64 | Boolean | Variable | String | Int16
deriving DecidableEq

/-- `libgm` `PushValue`.  Numeric payloads are modelled as `Int` (the
`as i64` casts in src/lib.rs are lossless sign extensions); a `Double`
payload is modelled by its bit pattern, since src/lib.rs never computes
with it; `function` and `variable` carry the numeric id of the name-table
reference (`GMRef`), flattening the `CodeVariable` wrapper whose only use
in src/lib.rs is the `.variable` projection. -/
inductive PushValue
  | boolean (v : Bool)
  | int16 (v : Int)
  | int32 (v : Int)
  | int64 (v : Int)
  | double (bits : Nat)
  | string (v : String)
  | function (v : Nat)
  | «variable» (v : Nat)
deriving DecidableEq

/-- `libgm` `AssetReference`: one numeric-id reference per asset table
(src/lib.rs lines 441-500). -/
inductive AssetReference
  | Object (r : Nat) | Sprite (r : Nat) | Sound (r : Nat) | Room (r : Nat)
  | Path (r : Nat) | Script (r : Nat) | Font (r : Nat) | Timeline (r : Nat)
  | Shader (r : Nat) | Sequence (r : Nat) | AnimCurve (r : Nat)
  | ParticleSystem (r : Nat) | Background (r : Nat)
  | RoomInstance (v : Nat) | Function (r : Nat)
deriving DecidableEq

/-- `libgm` `Instruction`, restricted to the constructors src/lib.rs
distinguishes; `OtherInstr` stands for every remaining `libgm` variant
(all of which hit the wildcard arms of src/lib.rs). -/
inductive Instruction
  | Push (value : PushValue)
  | PushReference (asset_reference : AssetReference)
  | Add (augend addend : DataType)
  | And (lhs rhs : DataType)
  | Divide (dividend divisor : DataType)
  | Modulus (dividend divisor : DataType)
  | Or (lhs rhs : DataType)
  | Remainder (dividend divisor : DataType)
  | ShiftLeft (value shift_amount : DataType)
  | ShiftRight (value shift_amount : DataType)
  | Subtract (minuend subtrahend : DataType)
  | Xor (lhs rhs : DataType)
  | Multiply (multiplicand multiplier : DataType)
  | Call (function : Nat) (argument_count : Nat)
  | Pop («variable» : Nat) (type1 type2 : DataType)
  | Branch (jump_offset : Int)
  | BranchIf (jump_offset : Int)
  | BranchUnless (jump_offset : Int)
  | PushWithContext (jump_offset : Int)
  | PopWithContext (jump_offset : Int)
  | Return
  | Exit
  | Convert (src dst : DataType)
  | OtherInstr
deriving DecidableEq

/-- Modelled from the spec: `Instruction::size()` comes from the external
`libgm` disassembler ("each instruction exposes its encoded byte size",
spec §6), whose source is not part of this repository.  The sizes follow
the GameMaker VM encoding the spec's examples rely on: the base word is
4 bytes, a 64-bit push payload adds 8 bytes, and other payloads (boolean,
int32, string/function/variable references, call targets, pop targets,
asset references) add 4 bytes — in particular a `push(false)` is 8 bytes,
so that `conditional-branch(-2)` directly after it targets instruction
index 0, as in the self-loop example of spec §8. -/
def Instruction.size : Instruction → Nat
  | .Push (.int16 _) => 4
  | .Push (.boolean _) => 8
  | .Push (.int32 _) => 8
  | .Push (.string _) => 8
  | .Push (.function _) => 8
  | .Push (.«variable» _) => 8
  | .Push (.int64 _) => 12
  | .Push (.double _) => 12
  | .PushReference _ => 8
  | .Call _ _ => 8
  | .Pop _ _ _ => 8
  | _ => 4

/-- `libgm` `GMCode`, restricted to what src/lib.rs uses: the instruction
list and the entry byte offset (`execution_offset()`, which src/main.rs's
`modern_data: None` leaves at 0). -/
structure GMCode where
  instructions : List Instruction
  execution_offset : Nat

/-- `libgm` `GMData`, restricted to what src/lib.rs uses: one id-indexed
name table per category (`GMRef::resolve` is modelled as `List.get?`). -/
structure GMData where
  functions : List String := []
  «variables» : List String := []
  game_objects : List String := []
  sprites : List String := []
  sounds : List String := []
  rooms : List String := []
  paths : List String := []
  scripts : List String := []
  fonts : List String := []
  timelines : List String := []
  shaders : List String := []
  sequences : List String := []
  animation_curves : List String := []
  particle_systems : List String := []
  backgrounds : List String := []

/-! ## Errors

Rust `Result` errors are recoverable; a `panic!` (`unwrap()`, `todo!()`,
`unreachable!()`, out-of-bounds indexing) is an uncontrolled abort.  Both
are collected in one error type, with `panic` kept distinct so theorems
can tell a recoverable failure from an abort. -/

/-- The failure modes of src/lib.rs.  The first three carry the numeric
context their Rust error messages interpolate. -/
inductive DcError
  | outOfRange (byteIndex reached : Nat)
  | misaligned (byteIndex reached : Nat)
  | negBeforeStart
  | stackUnderflow (entry : Nat)
  | unresolvedSymbol
  | panic
deriving DecidableEq

/-! ## Offset resolution (src/lib.rs lines 24-68) -/

/-- The `while offset < byte_index` walk inside `get_index_from_bytes`:
consume instructions, accumulating index and byte offset, until the
target byte offset is reached exactly (misalignment and running past the
end are the two failure modes). -/
def getIndexFromBytesAux (byteIndex : Nat) :
    List Instruction → Nat → Nat → Except DcError Nat
  | rest, index, offset =>
    if offset < byteIndex then
      match rest with
      | [] => .error (.outOfRange byteIndex offset)
      | instr :: rest' => getIndexFromBytesAux byteIndex rest' (index + 1) (offset + instr.size)
    else if offset = byteIndex then .ok index
    else .error (.misaligned byteIndex offset)

/-- `get_index_from_bytes` (src/lib.rs lines 24-41). -/
def getIndexFromBytes (instructions : List Instruction) (byteIndex : Nat) :
    Except DcError Nat :=
  if byteIndex = 0 then .ok 0
  else getIndexFromBytesAux byteIndex instructions 0 0

/-- `code_byte_length` (src/lib.rs lines 43-49). -/
def codeByteLength (instructions : List Instruction) : Nat :=
  instructions.foldl (fun size instr => size + instr.size) 0

/-- `get_index_from_byte_offset` (src/lib.rs lines 51-68).  Offset 0 is
the identity; a negative offset is resolved from the start of the prefix
before `index` (failing when it would land before the stream start); a
positive offset is resolved against the sub-stream starting at `index`
and — exactly as in the source — the returned index is relative to that
sub-stream, with `index` not added back. -/
def getIndexFromByteOffset (instructions : List Instruction) (index : Nat)
    (offset : Int) : Except DcError Nat :=
  if offset = 0 then .ok index
  else if offset < 0 then
    let pre := instructions.take index
    let pos : Int := (codeByteLength pre : Int) + offset
    if pos < 0 then .error .negBeforeStart
    else getIndexFromBytes pre pos.toNat
  else getIndexFromBytes (instructions.drop index) offset.toNat

/-! ## Instruction-level CFG construction (src/lib.rs lines 70-124) -/

/-- The working state of `create_instr_cfg_from_code`'s loop: the FIFO
queue `i_next` of `(parent, candidate)` pairs, the `seen_once` set, and
the CFG built so far. -/
structure BuildState where
  queue : List (Nat × Nat)
  seen : Finset Nat
  cfg : Cfg Unit
deriving DecidableEq

/-- Outcome of one iteration of the construction loop. -/
inductive BuildStepRes
  | done (st : BuildState)
  | cont (st : BuildState)
  | fail (e : DcError)
deriving DecidableEq

/-- The successor pairs enqueued for the instruction at index `c`
(src/lib.rs lines 91-118): an unconditional branch enqueues its resolved
target; a conditional branch or context push/pop enqueues the resolved
target and the fallthrough; return/exit enqueue nothing; everything else
enqueues the fallthrough.  Branch offsets are scaled by 4 (word offsets
to byte offsets) before resolution; a resolution failure aborts the whole
build. -/
def buildSuccs (instrs : List Instruction) (c : Nat) (instr : Instruction) :
    Except DcError (List (Nat × Nat)) :=
  match instr with
  | .Branch jump_offset =>
    match getIndexFromByteOffset instrs c (jump_offset * 4) with
    | .error e => .error e
    | .ok t => .ok [(c, t)]
  | .BranchIf jump_offset | .BranchUnless jump_offset
  | .PushWithContext jump_offset | .PopWithContext jump_offset =>
    match getIndexFromByteOffset instrs c (jump_offset * 4) with
    | .error e => .error e
    | .ok t => .ok [(c, t), (c, c + 1)]
  | .Return | .Exit => .ok []
  | _ => .ok [(c, c + 1)]

/-- One iteration of `create_instr_cfg_from_code`'s loop (src/lib.rs
lines 77-121): pop the front pair; an empty queue **or a candidate at or
past the end of the stream** breaks the whole loop; a candidate that is
already a member and already in `seen_once` is skipped entirely;
otherwise a repeated candidate is added to `seen_once`, the successors
are enqueued, and the `parent → candidate` edge is inserted. -/
def buildStep (instrs : List Instruction) (st : BuildState) : BuildStepRes :=
  match st.queue with
  | [] => .done st
  | (parent, c) :: rest =>
    if instrs.length ≤ c then .done { st with queue := rest }
    else if st.cfg.has c ∧ c ∈ st.seen then .cont { st with queue := rest }
    else
      let seen' := if st.cfg.has c then Insert.insert c st.seen else st.seen
      match instrs.get? c with
      | none => .fail .panic
      | some instr =>
        match buildSuccs instrs c instr with
        | .error e => .fail e
        | .ok succs =>
          match st.cfg.insert parent c () with
          | none => .fail .panic
          | some cfg' => .cont ⟨rest ++ succs, seen', cfg'⟩

/-- The construction loop, with fuel (`none` = fuel ran out; theorem
`C7_cfg_construction_terminates` shows `buildFuel` below always
suffices).  On normal exit the final `BuildState` is returned, so that
theorems can also observe the pairs still queued at the moment the loop
broke. -/
def buildLoop (instrs : List Instruction) : Nat → BuildState →
    Option (Except DcError BuildState)
  | 0, _ => none
  | fuel + 1, st =>
    match buildStep instrs st with
    | .done st' => some (.ok st')
    | .fail e => some (.error e)
    | .cont st' => buildLoop instrs fuel st'

/-- Fuel that always suffices for `buildLoop` (each instruction index is
expanded at most twice and each expansion enqueues at most two pairs). -/
def buildFuel (instrs : List Instruction) : Nat := 6 * instrs.length + 2

/-- The initial state: queue seeded with `(0, start)`, empty `seen_once`,
empty rootless CFG. -/
def buildInit (start : Nat) : BuildState :=
  ⟨[(0, start)], ∅, Cfg.newRootless Unit⟩

/-- `create_instr_cfg_from_code` (src/lib.rs lines 70-124), returning the
full final loop state (the built CFG is its `.cfg` field). -/
def createInstrCfgState (code : GMCode) : Option (Except DcError BuildState) :=
  match getIndexFromBytes code.instructions code.execution_offset with
  | .error e => some (.error e)
  | .ok start => buildLoop code.instructions (buildFuel code.instructions) (buildInit start)

/-- `create_instr_cfg_from_code`, projected to the CFG it returns. -/
def createInstrCfg (code : GMCode) : Option (Except DcError (Cfg Unit)) :=
  (createInstrCfgState code).map (·.map BuildState.cfg)

/-! ## The output AST (src/ast.rs)

`Box` indirections disappear; `Vec` becomes `List`.  Rust's tuple structs
become single-constructor inductives. -/

namespace ast

/-- `ast::AccessorType`. -/
inductive AccessorType
  | List | Map | Grid | Array | Struct
deriving DecidableEq

/-- `ast::AssignmentOp`. -/
inductive AssignmentOp
  | Equal | PlusEqual | MinusEqual | MultEqual | DivEqual | RemEqual
  | BitAndEqual | BitOrEqual | BitXorEqual | NullCoalesce
deriving DecidableEq

/-- `ast::MutationOp`. -/
inductive MutationOp
  | Increment | Decrement
deriving DecidableEq

/-- `ast::BinaryOp`. -/
inductive BinaryOp
  | Add | Sub | Mult | Div | Rem | IDiv
  | Equal | NotEqual | LessThan | LessEqual | GreaterThan | GreaterEqual
  | And | Or | Xor | BitAnd | BitOr | BitXor
  | BitShiftLeft | BitShiftRight | NullCoalesce
deriving DecidableEq

/-- `ast::UnaryOp`. -/
inductive UnaryOp
  | Not | Minus | BitNegate
deriving DecidableEq

/-- `ast::Constant`; the `f64` payload of `Float` is modelled by its bit
pattern (src/lib.rs only ever moves it around). -/
inductive Constant
  | Undefined
  | Boolean (v : Bool)
  | Integer (v : Int)
  | Float (bits : Nat)
  | String (v : String)
deriving DecidableEq

mutual

/-- `ast::Statement`. -/
inductive Statement
  | Empty
  | Block (b : Block)
  | Enum (name : String) (variants : List (String × Option Expr))
  | Function (name : String) (is_constructor : Bool) (inherit : Option Call)
      (params : List Param)
  | Var (decls : List (String × Option Expr))
  | Static (decls : List (String × Option Expr))
  | GlobalVar (name : String)
  | Assignment (target : MutableExpr) (op : AssignmentOp) (value : Expr)
  | Return (value : Option Expr)
  | If (cond : Expr) («then» : Statement) («else» : Option Statement)
  | For (initializer : Statement) (condition : Expr) (iterator : Statement)
      (body : Statement)
  | While (l : LoopStmt)
  | Repeat (l : LoopStmt)
  | Switch (target : Expr) (cases : List SwitchCase) (default : Option Block)
  | With (l : LoopStmt)
  | TryCatch (try_block : Statement) (err : String) (catch_block : Statement)
  | Throw (e : Expr)
  | Call (c : Call)
  | Prefix (m : Mutation)
  | Postfix (m : Mutation)
  | Break
  | Continue

/-- `ast::Block` (a tuple struct over `Vec<Statement>`). -/
inductive Block
  | mk (stmts : List Statement)

/-- `ast::Call`. -/
inductive Call
  | mk (base : Expr) (arguments : List Expr) (has_new : Bool)

/-- `ast::Param`. -/
inductive Param
  | mk (name : String) (default : Expr)

/-- `ast::LoopStmt`. -/
inductive LoopStmt
  | mk (target : Expr) (body : Statement)

/-- `ast::SwitchCase`. -/
inductive SwitchCase
  | mk (compare : Expr) (body : Block)

/-- `ast::Mutation`. -/
inductive Mutation
  | mk (op : MutationOp) (target : MutableExpr)

/-- `ast::MutableExpr`. -/
inductive MutableExpr
  | Ident (name : String)
  | Field (base : Expr) (field : String)
  | Index (base : Expr) (accessor_type : Option AccessorType) (indexes : List Expr)

/-- `ast::Expr`. -/
inductive Expr
  | Global
  | This
  | Other
  | Constant (c : Constant)
  | Ident (name : String)
  | Group (e : Expr)
  | Object (fields : List Field)
  | Array (elems : List Expr)
  | Unary (op : UnaryOp) (target : Expr)
  | Prefix (m : Mutation)
  | Postfix (m : Mutation)
  | Binary (lhs : Expr) (op : BinaryOp) (rhs : Expr)
  | Ternary (cond if_true if_false : Expr)
  | Call (c : Call)
  | Field (base : Expr) (field : String)
  | Index (base : Expr) (accessor_type : Option AccessorType) (indexes : List Expr)
  | Argument (arg_index : Expr)
  | ArgumentCount

/-- `ast::Field`. -/
inductive Field
  | Value (name : String) (e : Expr)
  | Init (name : String)

end

end ast

/-! ## Block metadata and resolutions (src/lib.rs lines 126-130, 237-252) -/

/-- A `Range<usize>` (`start..end`); `Range::default()` is `0..0`, and
`len()` is the truncated difference. -/
structure RangeN where
  start : Nat
  stop : Nat
deriving DecidableEq

/-- `ResolveState` (src/lib.rs lines 237-241). -/
inductive ResolveState
  | Unresolved
  | Resolved (b : ast.Block)

/-- `BlockMeta` (src/lib.rs lines 126-130). -/
structure BlockMeta where
  instr_range : RangeN
  resolve_state : ResolveState

/-- `Resolution` (src/lib.rs lines 246-252). -/
structure Resolution where
  nodes : List Nat
  merged_into : ResolveState
  merged_children : List Nat
  merged_parents : List Nat

/-! ## Basic-block partitioning (src/lib.rs lines 132-208) -/

/-- The leaders/trailers scan over the instruction CFG (src/lib.rs lines
137-171): index 0 is always a leader; a node with zero or several
children, or holding an unconditional `Branch`, is pushed as a trailer
(twice when both apply), and the next index is pushed as a leader when it
is below `in_cfg.len() - 1` — note that the comparison is against the
CFG's **node count**, exactly as in the source.  `none` models the panic
of `code.instructions[*node]` on an out-of-range node. -/
def leadersTrailers (code : GMCode) (inCfg : Cfg Unit) :
    Option (List Nat × List Nat) :=
  inCfg.keys.foldlM (fun lt node => do
    let ch ← inCfg.childrenOf node
    let instr ← code.instructions.get? node
    let (leaders, trailers) := lt
    let (leaders, trailers) :=
      match ch.length with
      | 0 => (leaders ++ (if node < inCfg.len - 1 then [node + 1] else []),
              trailers ++ [node])
      | 1 => (leaders, trailers)
      | _ => (leaders ++ (if node < inCfg.len - 1 then [node + 1] else []),
              trailers ++ [node])
    let (leaders, trailers) :=
      match instr with
      | .Branch _ => (leaders ++ (if node < inCfg.len - 1 then [node + 1] else []),
                      trailers ++ [node])
      | _ => (leaders, trailers)
    pure (leaders, trailers)) ([0], [])

/-- Association-list insert with overwrite, modelling
`collect::<HashMap<_, _>>()` (a later pair overwrites an earlier one at
the same key). -/
def insertOverwrite {α : Type} (l : List (Nat × α)) (k : Nat) (v : α) :
    List (Nat × α) :=
  match lookupN l k with
  | some _ => updateN l k fun _ => v
  | none => l ++ [(k, v)]

/-- The `blocks` map (src/lib.rs lines 173-178): zip trailers with
leaders, enumerate, and key each `(index, leader)` value by its trailer. -/
def blocksOf (leaders trailers : List Nat) : List (Nat × (Nat × Nat)) :=
  ((trailers.zip leaders).enum.map fun v => (v.2.1, (v.1, v.2.2))).foldl
    (fun acc p => insertOverwrite acc p.1 p.2) []

/-- One edge insertion of the partitioner's inner loop (src/lib.rs lines
188-204), for the block `(trailer = stop0, (index = i, leader = start))`
and one instruction-CFG `parent` of the leader: look the parent's owning
block up in `blocks` (`blocks[&parent]` panics on a miss), insert it
parentlessly with **default** metadata (`Range::default()`, i.e. `0..0`,
`Unresolved`), then insert the owning-block → this-block edge, writing
`(start..stop0+1, Unresolved)` metadata on the child. -/
def blockEdgeStep (blocks : List (Nat × (Nat × Nat))) (stop0 i start : Nat)
    (outCfg : Cfg BlockMeta) (parent : Nat) : Option (Cfg BlockMeta) := do
  let owning ← lookupN blocks parent
  let outCfg := outCfg.insertParentless owning.1 ⟨⟨0, 0⟩, .Unresolved⟩
  outCfg.insert owning.1 i ⟨⟨start, stop0 + 1⟩, .Unresolved⟩

/-- The partitioner's per-block loop body: iterate `blockEdgeStep` over
the instruction-CFG parents of the block's leader. -/
def blockNodeStep (blocks : List (Nat × (Nat × Nat))) (inCfg : Cfg Unit)
    (outCfg : Cfg BlockMeta) (entry : Nat × (Nat × Nat)) :
    Option (Cfg BlockMeta) := do
  let parents ← inCfg.parentsOf entry.2.2
  parents.foldlM (blockEdgeStep blocks entry.1 entry.2.1 entry.2.2) outCfg

/-- `instr_cfg_to_block_cfg` (src/lib.rs lines 133-208): compute leaders,
trailers and the `blocks` pairing, then build the block-level CFG by
iterating `blockNodeStep` over the blocks.  `none` models the panics
(`blocks[&parent]` on a missing key, `parents_of` on a missing node,
`insert` with an absent parent, `code.instructions[*node]` out of range).
Rust iterates the `blocks` `HashMap` and the parent `HashSet` in
unspecified orders; the model iterates both in insertion order. -/
def instrCfgToBlockCfg (code : GMCode) (inCfg : Cfg Unit) :
    Option (Cfg BlockMeta) := do
  let (leaders, trailers) ← leadersTrailers code inCfg
  let blocks := blocksOf leaders trailers
  blocks.foldlM (blockNodeStep blocks inCfg) (Cfg.newRootless BlockMeta)

/-! ## The straight-line resolver (src/lib.rs lines 273-547) -/

/-- The `Push` arm (src/lib.rs lines 302-320): materialize the pushed
expression; `none` models the `unwrap()` panic when a function or
variable reference misses its name table. -/
def pushValueExpr (data : GMData) : PushValue → Option ast.Expr
  | .boolean v => some (.Constant (.Boolean v))
  | .int16 v => some (.Constant (.Integer v))
  | .int32 v => some (.Constant (.Integer v))
  | .int64 v => some (.Constant (.Integer v))
  | .double bits => some (.Constant (.Float bits))
  | .string v => some (.Constant (.String v))
  | .function v => (data.functions.get? v).map ast.Expr.Ident
  | .«variable» v => (data.«variables».get? v).map ast.Expr.Ident

/-- Uppercase-hexadecimal rendering of `inst_{v:X}` room instances. -/
def natToHexUpper (n : Nat) : String :=
  ⟨(Nat.toDigits 16 n).map Char.toUpper⟩

/-- The `PushReference` arm (src/lib.rs lines 441-500): resolve the asset
name from the matching table (`none` models the `unwrap()` panic on a
miss); a `RoomInstance` synthesizes `inst_{id:X}` with no table. -/
def assetRefName (data : GMData) : AssetReference → Option String
  | .Object r => data.game_objects.get? r
  | .Sprite r => data.sprites.get? r
  | .Sound r => data.sounds.get? r
  | .Room r => data.rooms.get? r
  | .Path r => data.paths.get? r
  | .Script r => data.scripts.get? r
  | .Font r => data.fonts.get? r
  | .Timeline r => data.timelines.get? r
  | .Shader r => data.shaders.get? r
  | .Sequence r => data.sequences.get? r
  | .AnimCurve r => data.animation_curves.get? r
  | .ParticleSystem r => data.particle_systems.get? r
  | .Background r => data.backgrounds.get? r
  | .RoomInstance v => some ("inst_" ++ natToHexUpper v)
  | .Function r => data.functions.get? r

/-- The operator-selection `match` of the binary-operator arm (src/lib.rs
lines 365-418): boolean-tagged and/or/xor are logical, otherwise bitwise;
integer-tagged division is integer division.  `none` models the final
`unreachable!()`. -/
def binOpOf : Instruction → Option ast.BinaryOp
  | .Add _ _ => some .Add
  | .And .Boolean _ => some .And
  | .And _ _ => some .BitAnd
  | .Divide .Int16 _ => some .IDiv
  | .Divide .Int32 _ => some .IDiv
  | .Divide .Int64 _ => some .IDiv
  | .Divide _ _ => some .Div
  | .Modulus _ _ => some .Rem
  | .Remainder _ _ => some .Rem
  | .Or .Boolean _ => some .Or
  | .Or _ _ => some .BitOr
  | .ShiftLeft _ _ => some .BitShiftLeft
  | .ShiftRight _ _ => some .BitShiftRight
  | .Subtract _ _ => some .Sub
  | .Xor .Boolean _ => some .Xor
  | .Xor _ _ => some .BitXor
  | .Multiply _ _ => some .Mult
  | _ => none

/-- The stack-simulation loop of `StraightLineResolver::try_resolve`
(src/lib.rs lines 296-538) over the block's slice: `stack` is the
simulated operand stack (head = top), `out` the emitted statements in
reverse. The `i += 1` at the bottom of the Rust loop applies to every
arm, so an unconditional `Branch` resumes at its resolved target **plus
one**, and the raw `jump_offset` (not scaled by 4) is resolved against
the slice. `.error .panic` models the `unwrap()` panics (return /
pop-to-variable / call-argument pops on an empty stack, name-table
misses) and the wildcard `todo!()`; popping for a binary operator fails
recoverably with `stack underflow … block {entry}`; a conditional branch
discards the condition with `stack.pop();`, which on an empty stack is
silently a no-op. -/
def slrGo (data : GMData) (entry : Nat) (slice : List Instruction) :
    Nat → Nat → List ast.Expr → List ast.Statement →
    Option (Except DcError (List ast.Statement))
  | 0, _, _, _ => none
  | fuel + 1, i, stack, out =>
    match slice.get? i with
    | none => some (.ok out.reverse)
    | some instr =>
      match instr with
      | .Push value =>
        match pushValueExpr data value with
        | none => some (.error .panic)
        | some e => slrGo data entry slice fuel (i + 1) (e :: stack) out
      | .Add _ _ | .And _ _ | .Divide _ _ | .Modulus _ _ | .Or _ _
      | .Remainder _ _ | .ShiftLeft _ _ | .ShiftRight _ _
      | .Subtract _ _ | .Xor _ _ | .Multiply _ _ =>
        match stack with
        | arg2 :: arg1 :: rest =>
          match binOpOf instr with
          | none => some (.error .panic)
          | some op =>
            slrGo data entry slice fuel (i + 1) (.Binary arg1 op arg2 :: rest) out
        | _ => some (.error (.stackUnderflow entry))
      | .Call function argument_count =>
        if argument_count ≤ stack.length then
          match data.functions.get? function with
          | none => some (.error .panic)
          | some name =>
            slrGo data entry slice fuel (i + 1)
              (.Call (.mk (.Ident name) (stack.take argument_count) false)
                :: stack.drop argument_count) out
        else some (.error .panic)
      | .PushReference asset_reference =>
        match assetRefName data asset_reference with
        | none => some (.error .panic)
        | some name => slrGo data entry slice fuel (i + 1) (.Ident name :: stack) out
      | .Exit => slrGo data entry slice fuel (i + 1) stack (.Return none :: out)
      | .Return =>
        match stack with
        | v :: rest => slrGo data entry slice fuel (i + 1) rest (.Return (some v) :: out)
        | [] => some (.error .panic)
      | .Pop var _ _ =>
        match stack with
        | v :: rest =>
          match data.«variables».get? var with
          | none => some (.error .unresolvedSymbol)
          | some name =>
            slrGo data entry slice fuel (i + 1) rest
              (.Assignment (.Ident name) .Equal v :: out)
        | [] => some (.error .panic)
      | .Branch jump_offset =>
        match getIndexFromByteOffset slice i jump_offset with
        | .error e => some (.error e)
        | .ok t => slrGo data entry slice fuel (t + 1) stack out
      | .BranchIf _ | .BranchUnless _ =>
        slrGo data entry slice fuel (i + 1) (stack.drop 1) out
      | .Convert _ _ => slrGo data entry slice fuel (i + 1) stack out
      | _ => some (.error .panic)

/-- `StraightLineResolver::try_resolve` (src/lib.rs lines 278-546): look
up the entry block's metadata (panic when absent), decline a block whose
range spans at most one instruction, simulate the stack over exactly the
block's slice, and on success consume exactly the entry node, carrying
`Resolved(Block(out))` and the entry's unchanged children and parents.
An invalid range makes the Rust slice indexing panic. -/
def StraightLineResolver.tryResolve (fuel : Nat) (block_cfg : Cfg BlockMeta)
    (code : GMCode) (data : GMData) (entry : Nat) :
    Option (Except DcError (Option Resolution)) :=
  match block_cfg.metaOf entry with
  | none => some (.error .panic)
  | some meta =>
    let range := meta.instr_range
    if range.stop - range.start ≤ 1 then some (.ok none)
    else if range.start ≤ range.stop ∧ range.stop ≤ code.instructions.length then
      let slice := (code.instructions.drop range.start).take (range.stop - range.start)
      match slrGo data entry slice fuel 0 [] [] with
      | none => none
      | some (.error e) => some (.error e)
      | some (.ok out) =>
        match block_cfg.childrenOf entry, block_cfg.parentsOf entry with
        | some ch, some pa => some (.ok (some ⟨[entry], .Resolved (.mk out), ch, pa⟩))
        | _, _ => some (.error .panic)
    else some (.error .panic)

/-! ## Decompiling one code entry (src/lib.rs lines 211-231) -/

/-- The `for i in 0..cfg.len()` loop of `decompile_one`, iterating `n`
more indices starting at `i`: a resolver `Err` propagates through `?`; a
declined block (`None`) is skipped with no output; a resolved block's
`Block` is appended (`unreachable!()` on an `Unresolved` resolution is a
panic). -/
def decompileLoop (fuel : Nat) (bcfg : Cfg BlockMeta) (code : GMCode)
    (data : GMData) : Nat → Nat → List ast.Block →
    Option (Except DcError (List ast.Block))
  | _, 0, acc => some (.ok acc.reverse)
  | i, n + 1, acc =>
    match StraightLineResolver.tryResolve fuel bcfg code data i with
    | none => none
    | some (.error e) => some (.error e)
    | some (.ok none) => decompileLoop fuel bcfg code data (i + 1) n acc
    | some (.ok (some res)) =>
      match res.merged_into with
      | .Resolved v => decompileLoop fuel bcfg code data (i + 1) n (v :: acc)
      | .Unresolved => some (.error .panic)

/-- `decompile_one` (src/lib.rs lines 211-231).  The `String` the Rust
function returns is the concatenation of the `{:#?}` debug renderings of
the resolved blocks in block-index order; the model abstracts the
formatting and returns that list of resolved `ast.Block`s. -/
def decompileOne (fuel : Nat) (code : GMCode) (data : GMData) :
    Option (Except DcError (List ast.Block)) :=
  match createInstrCfg code with
  | none => none
  | some (.error e) => some (.error e)
  | some (.ok instrCfg) =>
    match instrCfgToBlockCfg code instrCfg with
    | none => some (.error .panic)
    | some cfg => decompileLoop fuel cfg code data 0 cfg.len []

/-- The block-level CFG `decompile_one` hands to the resolvers (the
composition of CFG construction and partitioning), for use in theorem
statements. -/
def blockCfgOf (code : GMCode) : Option (Cfg BlockMeta) :=
  match createInstrCfg code with
  | some (.ok instrCfg) => instrCfgToBlockCfg code instrCfg
  | _ => none

/-- Equality of `Except` results is decidable when both sides are, so that
concrete runs can be checked by `decide`. -/
instance {ε α : Type} [DecidableEq ε] [DecidableEq α] : DecidableEq (Except ε α) :=
  fun a b =>
  match a, b with
  | .ok x, .ok y =>
    if h : x = y then .isTrue (by rw [h]) else .isFalse (by simp [h])
  | .error x, .error y =>
    if h : x = y then .isTrue (by rw [h]) else .isFalse (by simp [h])
  | .ok _, .error _ => .isFalse (by simp)
  | .error _, .ok _ => .isFalse (by simp)

/-- Iterate `buildStep` while it continues, for observing intermediate
loop states of the CFG construction in concrete runs. -/
def buildSteps (instrs : List Instruction) : Nat → BuildState → BuildState
  | 0, st => st
  | n + 1, st =>
    match buildStep instrs st with
    | .cont st' => buildSteps instrs n st'
    | _ => st

/-- Evaluation helper: the CFG a successful construction returns. -/
def builtCfg? (code : GMCode) : Option (Cfg Unit) :=
  match createInstrCfg code with
  | some (.ok g) => some g
  | _ => none

/-! ## Concrete programs used by the theorems -/

/-- A one-node block CFG whose entry block covers instructions `[0, n)`,
used to drive the straight-line resolver directly. -/
def singleBlockCfg (n : Nat) : Cfg BlockMeta :=
  (Cfg.newRootless BlockMeta).insertParentless 0 ⟨⟨0, n⟩, .Unresolved⟩

/-- A block ending in a pop-to-variable executed against an empty stack. -/
def popOnEmptyCode : GMCode := ⟨[.Convert .Int64 .Variable, .Pop 0 .Variable .Int64], 0⟩

/-- A block ending in a value return executed against an empty stack. -/
def returnOnEmptyCode : GMCode := ⟨[.Convert .Int64 .Variable, .Return], 0⟩

/-- A block ending in a one-argument call executed against an empty stack. -/
def callOnEmptyCode : GMCode := ⟨[.Convert .Int64 .Variable, .Call 0 1], 0⟩

/-- A block ending in a binary add executed against an empty stack. -/
def addOnEmptyCode : GMCode := ⟨[.Convert .Int64 .Variable, .Add .Int64 .Int64], 0⟩

/-- A block ending in a conditional branch executed against an empty stack. -/
def branchIfOnEmptyCode : GMCode := ⟨[.Convert .Int64 .Variable, .BranchIf 1], 0⟩

/-- Spec §8's example block `[push 256, push 256, add(int64,int64), return]`. -/
def returnAddCode : GMCode :=
  ⟨[.Push (.int64 256), .Push (.int64 256), .Add .Int64 .Int64, .Return], 0⟩

/-- `[push 1, push 2, subtract, return]`, to pin down operand order. -/
def returnSubCode : GMCode :=
  ⟨[.Push (.int64 1), .Push (.int64 2), .Subtract .Int64 .Int64, .Return], 0⟩

/-- Spec §8's self-loop example `[push(false), conditional-branch(-2)]`. -/
def selfLoopCode : GMCode := ⟨[.Push (.boolean false), .BranchIf (-2)], 0⟩

/-- Three conditional branches back to instruction 0, so that index 0 is
reached a third time (from parent 2) while already seen twice. -/
def tripleBranchCode : GMCode :=
  ⟨[.Push (.boolean false), .BranchIf (-2), .BranchIf (-3), .BranchIf (-4)], 0⟩

/-- A conditional branch whose target (index 2) is past the end of the
two-instruction stream, with the fallthrough pair still queued behind it. -/
def branchPastEndCode : GMCode := ⟨[.BranchIf 2, .Exit], 0⟩

/-- Observation helper: the child set of node `k` in the CFG a successful
construction returns. -/
def builtChildren (code : GMCode) (k : Nat) : Option (List Nat) :=
  (builtCfg? code).bind fun g => g.childrenOf k

/-- Observation helper: the parent set of node `k` in the CFG a
successful construction returns. -/
def builtParents (code : GMCode) (k : Nat) : Option (List Nat) :=
  (builtCfg? code).bind fun g => g.parentsOf k

/-- Observation helper: the queue left over when the construction loop
breaks. -/
def finalQueue? (code : GMCode) : Option (List (Nat × Nat)) :=
  match createInstrCfgState code with
  | some (.ok st) => some st.queue
  | _ => none

/-- The code entry src/main.rs hand-builds: a conditional self-loop over
instructions 0-1 followed by a straight-line add-and-return. -/
def mainCode : GMCode :=
  ⟨[.Push (.boolean true), .BranchIf (-2), .Push (.int64 256), .Push (.int64 256),
    .Add .Int64 .Int64, .Convert .Int64 .Variable, .Return], 0⟩

/-- Observation helper: the metadata of node `k` of the block-level CFG
`decompile_one` builds for `code`. -/
def blockMetaOf? (code : GMCode) (k : Nat) : Option BlockMeta :=
  (blockCfgOf code).bind fun g => g.metaOf k

/-- Observation helper: the `(trailer, (index, leader))` association the
partitioner computes for `code`. -/
def codeBlocks? (code : GMCode) : Option (List (Nat × (Nat × Nat))) :=
  (builtCfg? code).bind fun g =>
    (leadersTrailers code g).map fun lt => blocksOf lt.1 lt.2

/-- The instruction-level CFG the builder computes for `mainCode`. -/
def mainInstrCfg : Cfg Unit :=
  ⟨[(0, ⟨0, [1], [1], ()⟩), (1, ⟨1, [0, 2], [0], ()⟩), (2, ⟨2, [3], [1], ()⟩),
    (3, ⟨3, [4], [2], ()⟩), (4, ⟨4, [5], [3], ()⟩), (5, ⟨5, [6], [4], ()⟩),
    (6, ⟨6, [], [5], ()⟩)], some 0⟩

/-- The block-level CFG the partitioner computes for `mainCode`: node 0
(blocks 0-1) is left holding the default empty range, node 1 (blocks 2-6)
holds `2..7`. -/
def mainBlockCfg : Cfg BlockMeta :=
  ⟨[(0, ⟨0, [0, 1], [0], ⟨⟨0, 0⟩, .Unresolved⟩⟩),
    (1, ⟨1, [], [0], ⟨⟨2, 7⟩, .Unresolved⟩⟩)], some 0⟩

/-- The metadata invariant of the partitioner's output: every node is
`Unresolved` and carries either the default empty range `0..0` or the
`[leader, trailer+1)` range of a `blocks` entry whose block index is the
node itself. -/
def MetaOK (blocks : List (Nat × (Nat × Nat))) (g : Cfg BlockMeta) : Prop :=
  ∀ k m, g.metaOf k = some m → m.resolve_state = .Unresolved ∧
    (m.instr_range = ⟨0, 0⟩ ∨
      ∃ e i s, (e, (i, s)) ∈ blocks ∧ k = i ∧ m.instr_range = ⟨s, e + 1⟩)

/-- The node stored at `k` after `insert parent t m` on a non-empty
graph, expressed over the old map (reasoning helper for `Cfg.insert`). -/
def insertNodeAt {M : Type} (nodes : List (Nat × Node M)) (parent t : Nat)
    (m : M) (k : Nat) : Option (Node M) :=
  let base :=
    if t = k then
      match lookupN nodes t with
      | some n => some { n with parents := insertS n.parents parent, meta := m }
      | none => some ⟨t, [], [parent], m⟩
    else lookupN nodes k
  if parent = k then
    base.map fun n => { n with children := insertS n.children t }
  else base

/-- A container operation, as issued by callers of the CFG container. -/
inductive CfgOp (M : Type)
  | ins (parent this : Nat) (meta : M)
  | insP (this : Nat) (meta : M)
  | rem (this : Nat)

/-- Apply one container operation; `none` models a panic. -/
def applyOp {M : Type} (g : Cfg M) (op : CfgOp M) : Option (Cfg M) :=
  match op with
  | .ins p t m => g.insert p t m
  | .insP t m => some (g.insertParentless t m)
  | .rem t => g.remove t

/-- Run a sequence of container operations from the empty rootless graph;
`none` models a panic in any step. -/
def runOps {M : Type} (ops : List (CfgOp M)) : Option (Cfg M) :=
  ops.foldlM applyOp (Cfg.newRootless M)

/-- Edge symmetry (spec §3): for member nodes `a` and `b`, `b` appears in
`a`'s children exactly when `a` appears in `b`'s parents. -/
def EdgeSym {M : Type} (g : Cfg M) : Prop :=
  ∀ a na b nb, lookupN g.nodes a = some na → lookupN g.nodes b = some nb →
    (b ∈ na.children ↔ a ∈ nb.parents)

/-- Every recorded edge endpoint is a member of the graph. -/
def EdgeClosed {M : Type} (g : Cfg M) : Prop :=
  ∀ a na, lookupN g.nodes a = some na →
    (∀ c ∈ na.children, (lookupN g.nodes c).isSome = true) ∧
    (∀ p ∈ na.parents, (lookupN g.nodes p).isSome = true)

/-- Edge sets are genuine sets (no duplicates), as `HashSet`s are. -/
def NodeSetsWF {M : Type} (g : Cfg M) : Prop :=
  ∀ a na, lookupN g.nodes a = some na → na.children.Nodup ∧ na.parents.Nodup

/-- The well-formedness invariant every reachable container state
satisfies: distinct keys, duplicate-free edge sets, closed edges, and
symmetric edges. -/
def CfgWF {M : Type} (g : Cfg M) : Prop :=
  (g.nodes.map Prod.fst).Nodup ∧ NodeSetsWF g ∧ EdgeClosed g ∧ EdgeSym g

/-- The child set stored at `k`, taking `[]` for a non-member (reasoning
helper for the well-formedness proofs). -/
def oldCh {M : Type} (g : Cfg M) (k : Nat) : List Nat :=
  match lookupN g.nodes k with
  | some n => n.children
  | none => []

/-- The parent set stored at `k`, taking `[]` for a non-member (reasoning
helper for the well-formedness proofs). -/
def oldPa {M : Type} (g : Cfg M) (k : Nat) : List Nat :=
  match lookupN g.nodes k with
  | some n => n.parents
  | none => []

/-- Termination potential for the construction loop: the queue length
plus three credits for every expansion each instruction index can still
receive (an index is expanded at most twice: once when unvisited, once
when it enters `seen_once`). -/
def buildPotential (n : Nat) (st : BuildState) : Nat :=
  st.queue.length + 3 * ((n - st.cfg.len) + (n - st.seen.card))

/-- Invariant of the construction loop: the CFG's keys are distinct
instruction indices below the stream length, and `seen_once` holds only
indices below the stream length. -/
def BuildInv (n : Nat) (st : BuildState) : Prop :=
  st.cfg.keys.Nodup ∧ (∀ k ∈ st.cfg.keys, k < n) ∧ st.seen ⊆ Finset.range n

/-- A block `[push_i16 1, push_i16 2, branch(-2), return]`: under the CFG
builder's interpretation (`jump_offset * 4` bytes) the branch targets
instruction 0, inside the slice. -/
def backJumpCode : GMCode :=
  ⟨[.Push (.int16 1), .Push (.int16 2), .Branch (-2), .Return], 0⟩

/-- A block `[push_i16 5, branch(4), push_i16 6, return]`, whose raw
4-byte offset resolves (within the sub-stream starting at the branch) to
sub-index 1. -/
def forwardJumpCode : GMCode :=
  ⟨[.Push (.int16 5), .Branch 4, .Push (.int16 6), .Return], 0⟩

/-! ## General lemmas about the container model -/

/-- Looking up after an `updateN`: the targeted key's value is mapped,
every other key is untouched. -/
theorem lookupN_updateN {α : Type} (l : List (Nat × α)) (key k : Nat) (f : α → α) :
    lookupN (updateN l key f) k =
      if key = k then (lookupN l k).map f else lookupN l k := by
  induction l with
  | nil => simp [updateN, lookupN]
  | cons p rest ih =>
    obtain ⟨a, b⟩ := p
    by_cases h1 : a = key
    · subst h1
      by_cases h2 : a = k
      · subst h2; simp [updateN, lookupN, ih]
      · simp [updateN, lookupN, h2, ih]
    · by_cases h2 : a = k
      · subst h2
        have h1' : ¬key = a := fun h => h1 h.symm
        simp [updateN, lookupN, h1, h1', ih]
      · simp [updateN, lookupN, h1, h2, ih]

/-- Looking up in an appended association list. -/
theorem lookupN_append {α : Type} (l1 l2 : List (Nat × α)) (k : Nat) :
    lookupN (l1 ++ l2) k =
      match lookupN l1 k with
      | some v => some v
      | none => lookupN l2 k := by
  induction l1 with
  | nil => simp [lookupN]
  | cons p rest ih =>
    by_cases h : p.1 = k <;> simp [lookupN, h, ih]

/-- An `updateN` that does not touch metadata leaves every node's
metadata unchanged. -/
theorem lookupN_updateN_meta {M : Type} (l : List (Nat × Node M)) (key k : Nat)
    (f : Node M → Node M) (hf : ∀ n, (f n).meta = n.meta) :
    (lookupN (updateN l key f) k).map Node.meta = (lookupN l k).map Node.meta := by
  rw [lookupN_updateN]
  split
  · cases lookupN l k <;> simp [hf]
  · rfl

/-- Metadata after `Cfg.insertParentless`: the inserted node carries the
new metadata, every other node keeps its own. -/
theorem Cfg.metaOf_insertParentless {M : Type} (g : Cfg M) (t : Nat) (m : M)
    (k : Nat) :
    (g.insertParentless t m).metaOf k = if t = k then some m else g.metaOf k := by
  unfold Cfg.insertParentless
  cases hg : g.nodes with
  | nil => by_cases h : t = k <;> simp [Cfg.metaOf, lookupN, h, hg]
  | cons p rest =>
    simp only [List.isEmpty_cons, Bool.false_eq_true, if_false]
    cases hl : lookupN (p :: rest) t with
    | some n =>
      simp only [hl, Cfg.metaOf]
      rw [lookupN_updateN]
      by_cases h : t = k
      · subst h; simp [hl, hg]
      · simp [h, hg]
    | none =>
      simp only [hl, Cfg.metaOf]
      rw [lookupN_append]
      by_cases h : t = k
      · subst h; rw [hl]; simp [lookupN, hg]
      · cases hk : lookupN (p :: rest) k <;> simp [lookupN, h, hg, hk]

/-- Metadata after a successful `Cfg.insert`: the inserted node carries
the new metadata, every other node keeps its own (the parent's child-set
update does not touch metadata). -/
theorem Cfg.metaOf_insert {M : Type} {g g' : Cfg M} {parent t : Nat} {m : M}
    (hins : g.insert parent t m = some g') (k : Nat) :
    g'.metaOf k = if t = k then some m else g.metaOf k := by
  unfold Cfg.insert at hins
  cases hg : g.nodes with
  | nil =>
    rw [hg] at hins
    simp only [List.isEmpty_nil, if_true] at hins
    have hx := Option.some.inj hins
    subst hx
    by_cases h : t = k <;> simp [Cfg.metaOf, lookupN, h, hg]
  | cons p rest =>
    rw [hg] at hins
    simp only [List.isEmpty_cons, Bool.false_eq_true, if_false] at hins
    cases hl : lookupN (p :: rest) t with
    | some n =>
      simp only [hl] at hins
      cases hp : lookupN (updateN (p :: rest) t fun n =>
          { n with parents := insertS n.parents parent, meta := m }) parent with
      | none => rw [hp] at hins; exact Option.noConfusion hins
      | some q =>
        rw [hp] at hins
        have hx := Option.some.inj hins
        subst hx
        simp only [Cfg.metaOf]
        rw [lookupN_updateN_meta _ parent k
          (fun n => { n with children := insertS n.children t }) (fun n => rfl)]
        have hmeta := lookupN_updateN_meta (p :: rest) t k
          (fun n => { n with parents := insertS n.parents parent, meta := m })
        rw [lookupN_updateN]
        by_cases h : t = k
        · subst h; simp [hl, hg, Cfg.metaOf]
        · simp [h, hg, Cfg.metaOf]
    | none =>
      simp only [hl] at hins
      cases hp : lookupN ((p :: rest) ++ [(t, ⟨t, [], [parent], m⟩)]) parent with
      | none => rw [hp] at hins; exact Option.noConfusion hins
      | some q =>
        rw [hp] at hins
        have hx := Option.some.inj hins
        subst hx
        simp only [Cfg.metaOf]
        rw [lookupN_updateN_meta _ parent k
          (fun n => { n with children := insertS n.children t }) (fun n => rfl)]
        rw [lookupN_append]
        by_cases h : t = k
        · subst h; rw [hl]; simp [lookupN, hg, Cfg.metaOf]
        · cases hk : lookupN (p :: rest) k <;>
            simp [lookupN, h, hg, Cfg.metaOf, hk]

/-! ## The partitioner's metadata invariant (for C5) -/

/-- One `blockEdgeStep` preserves `MetaOK`. -/
theorem metaOK_blockEdgeStep {blocks : List (Nat × (Nat × Nat))}
    {stop0 i start : Nat} (hmem : (stop0, (i, start)) ∈ blocks)
    {g g' : Cfg BlockMeta} {parent : Nat}
    (hstep : blockEdgeStep blocks stop0 i start g parent = some g')
    (hg : MetaOK blocks g) : MetaOK blocks g' := by
  unfold blockEdgeStep at hstep
  cases ho : lookupN blocks parent with
  | none => rw [ho] at hstep; simp at hstep
  | some owning =>
    simp only [ho, Option.some_bind] at hstep
    intro k m hk
    rw [Cfg.metaOf_insert hstep k] at hk
    by_cases hik : i = k
    · rw [if_pos hik] at hk
      have hm := Option.some.inj hk
      subst hm
      exact ⟨rfl, Or.inr ⟨stop0, i, start, hmem, hik.symm, rfl⟩⟩
    · rw [if_neg hik] at hk
      rw [Cfg.metaOf_insertParentless] at hk
      by_cases hok : owning.1 = k
      · rw [if_pos hok] at hk
        have hm := Option.some.inj hk
        subst hm
        exact ⟨rfl, Or.inl rfl⟩
      · rw [if_neg hok] at hk
        exact hg k m hk

/-- The inner fold over a block's parents preserves `MetaOK`. -/
theorem metaOK_edgeFold {blocks : List (Nat × (Nat × Nat))}
    {stop0 i start : Nat} (hmem : (stop0, (i, start)) ∈ blocks) :
    ∀ (ps : List Nat) (g g' : Cfg BlockMeta),
      ps.foldlM (blockEdgeStep blocks stop0 i start) g = some g' →
      MetaOK blocks g → MetaOK blocks g' := by
  intro ps
  induction ps with
  | nil =>
    intro g g' h hg
    simp only [List.foldlM_nil] at h
    have hx := Option.some.inj h
    subst hx
    exact hg
  | cons p ps ih =>
    intro g g' h hg
    rw [List.foldlM_cons] at h
    cases hstep : blockEdgeStep blocks stop0 i start g p with
    | none => rw [hstep] at h; simp at h
    | some g1 =>
      simp only [hstep, Option.some_bind] at h
      exact ih g1 g' h (metaOK_blockEdgeStep hmem hstep hg)

/-- One `blockNodeStep` preserves `MetaOK` when the processed entry is a
`blocks` entry. -/
theorem metaOK_blockNodeStep {blocks : List (Nat × (Nat × Nat))}
    {inCfg : Cfg Unit} {g g' : Cfg BlockMeta} {entry : Nat × (Nat × Nat)}
    (hmem : entry ∈ blocks)
    (hstep : blockNodeStep blocks inCfg g entry = some g')
    (hg : MetaOK blocks g) : MetaOK blocks g' := by
  unfold blockNodeStep at hstep
  cases hp : inCfg.parentsOf entry.2.2 with
  | none => rw [hp] at hstep; simp at hstep
  | some ps =>
    simp only [hp, Option.some_bind] at hstep
    exact metaOK_edgeFold (show (entry.1, (entry.2.1, entry.2.2)) ∈ blocks from hmem)
      ps g g' hstep hg

/-- The outer fold over the blocks preserves `MetaOK`. -/
theorem metaOK_nodeFold {blocks : List (Nat × (Nat × Nat))} {inCfg : Cfg Unit} :
    ∀ (L : List (Nat × (Nat × Nat))), (∀ x ∈ L, x ∈ blocks) →
      ∀ (g g' : Cfg BlockMeta),
        L.foldlM (blockNodeStep blocks inCfg) g = some g' →
        MetaOK blocks g → MetaOK blocks g' := by
  intro L
  induction L with
  | nil =>
    intro _ g g' h hg
    simp only [List.foldlM_nil] at h
    have hx := Option.some.inj h
    subst hx
    exact hg
  | cons e L ih =>
    intro hsub g g' h hg
    rw [List.foldlM_cons] at h
    cases hstep : blockNodeStep blocks inCfg g e with
    | none => rw [hstep] at h; simp at h
    | some g1 =>
      simp only [hstep, Option.some_bind] at h
      exact ih (fun x hx => hsub x (List.mem_cons_of_mem e hx)) g1 g' h
        (metaOK_blockNodeStep (hsub e (List.mem_cons_self e L)) hstep hg)

/-! ## Termination of CFG construction (for C7) -/

/-- A lookup succeeds exactly when the key occurs among the keys. -/
theorem lookupN_isSome_iff {α : Type} (l : List (Nat × α)) (k : Nat) :
    (lookupN l k).isSome = true ↔ k ∈ l.map Prod.fst := by
  induction l with
  | nil => simp [lookupN]
  | cons p rest ih =>
    obtain ⟨a, b⟩ := p
    by_cases h : a = k
    · simp [lookupN, h]
    · simp only [lookupN, h, if_false, List.map_cons, List.mem_cons, ih]
      constructor
      · exact fun hm => Or.inr hm
      · rintro (hka | hm)
        · exact absurd hka.symm h
        · exact hm

/-- `updateN` never changes the key list. -/
theorem keys_updateN {α : Type} (l : List (Nat × α)) (key : Nat) (f : α → α) :
    (updateN l key f).map Prod.fst = l.map Prod.fst := by
  induction l with
  | nil => rfl
  | cons p rest ih =>
    obtain ⟨a, b⟩ := p
    by_cases h : a = key <;> simp [updateN, h, ih]

/-- Key provenance through a successful `Cfg.insert`: the key list stays
the same when `this` was already a member and gains exactly `this` at the
end otherwise. -/
theorem Cfg.insert_keys {M : Type} {g g' : Cfg M} {parent t : Nat} {m : M}
    (hins : g.insert parent t m = some g') :
    g'.nodes.map Prod.fst =
      if (lookupN g.nodes t).isSome then g.nodes.map Prod.fst
      else g.nodes.map Prod.fst ++ [t] := by
  unfold Cfg.insert at hins
  cases hg : g.nodes with
  | nil =>
    rw [hg] at hins
    simp only [List.isEmpty_nil, if_true] at hins
    have hx := Option.some.inj hins
    subst hx
    simp [lookupN, hg]
  | cons p rest =>
    rw [hg] at hins
    simp only [List.isEmpty_cons, Bool.false_eq_true, if_false] at hins
    cases hl : lookupN (p :: rest) t with
    | some n =>
      simp only [hl] at hins
      cases hp : lookupN (updateN (p :: rest) t fun n =>
          { n with parents := insertS n.parents parent, meta := m }) parent with
      | none => rw [hp] at hins; exact Option.noConfusion hins
      | some q =>
        rw [hp] at hins
        have hx := Option.some.inj hins
        subst hx
        simp [keys_updateN, hl, hg]
    | none =>
      simp only [hl] at hins
      cases hp : lookupN ((p :: rest) ++ [(t, ⟨t, [], [parent], m⟩)]) parent with
      | none => rw [hp] at hins; exact Option.noConfusion hins
      | some q =>
        rw [hp] at hins
        have hx := Option.some.inj hins
        subst hx
        simp [keys_updateN, hl, hg]

/-- A duplicate-free list of naturals below `n` has at most `n`
elements. -/
theorem nodup_length_le (l : List Nat) (n : Nat) (hn : l.Nodup)
    (hlt : ∀ x ∈ l, x < n) : l.length ≤ n := by
  have h1 : l.toFinset ⊆ Finset.range n := by
    intro x hx
    simp only [List.mem_toFinset] at hx
    exact Finset.mem_range.mpr (hlt x hx)
  have h2 := Finset.card_le_card h1
  rw [List.toFinset_card_of_nodup hn, Finset.card_range] at h2
  exact h2

/-- `buildSuccs` never enqueues more than two pairs. -/
theorem buildSuccs_length {instrs : List Instruction} {c : Nat}
    {instr : Instruction} {succs : List (Nat × Nat)}
    (h : buildSuccs instrs c instr = .ok succs) : succs.length ≤ 2 := by
  unfold buildSuccs at h
  split at h
  all_goals try split at h
  all_goals first
    | exact Except.noConfusion h
    | (obtain rfl := Except.ok.inj h; simp)

/-- Every `cont` step of the construction loop preserves the invariant
and strictly decreases the potential. -/
theorem buildStep_cont {instrs : List Instruction} {st st' : BuildState}
    (h : buildStep instrs st = .cont st') (hinv : BuildInv instrs.length st) :
    BuildInv instrs.length st' ∧
      buildPotential instrs.length st' < buildPotential instrs.length st := by
  obtain ⟨hnd, hmem, hsub⟩ := hinv
  unfold buildStep at h
  cases hq : st.queue with
  | nil => rw [hq] at h; exact BuildStepRes.noConfusion h
  | cons pc rest =>
    obtain ⟨parent, c⟩ := pc
    rw [hq] at h
    dsimp only at h
    by_cases hlen : instrs.length ≤ c
    · rw [if_pos hlen] at h; exact BuildStepRes.noConfusion h
    · rw [if_neg hlen] at h
      by_cases hskip : st.cfg.has c ∧ c ∈ st.seen
      · rw [if_pos hskip] at h
        obtain rfl := BuildStepRes.cont.inj h
        exact ⟨⟨hnd, hmem, hsub⟩, by simp [buildPotential, hq]⟩
      · rw [if_neg hskip] at h
        cases hget : instrs.get? c with
        | none => rw [hget] at h; exact BuildStepRes.noConfusion h
        | some instr =>
          rw [hget] at h
          dsimp only at h
          cases hsuccs : buildSuccs instrs c instr with
          | error e => rw [hsuccs] at h; exact BuildStepRes.noConfusion h
          | ok succs =>
            rw [hsuccs] at h
            dsimp only at h
            cases hins : st.cfg.insert parent c () with
            | none => rw [hins] at h; exact BuildStepRes.noConfusion h
            | some cfg' =>
              rw [hins] at h
              dsimp only at h
              obtain rfl := BuildStepRes.cont.inj h
              have hslen := buildSuccs_length hsuccs
              have hkeys := Cfg.insert_keys hins
              have hc : c < instrs.length := Nat.lt_of_not_le hlen
              by_cases hhas : (lookupN st.cfg.nodes c).isSome
              · -- the candidate is already a member: `seen_once` grows
                have hcseen : c ∉ st.seen := fun hcs =>
                  hskip ⟨by simpa [Cfg.has] using hhas, hcs⟩
                rw [if_pos hhas] at hkeys
                have hlen_eq : cfg'.nodes.length = st.cfg.nodes.length := by
                  have := congrArg List.length hkeys
                  simpa using this
                have hseen' : (if st.cfg.has c then Insert.insert c st.seen
                    else st.seen) = Insert.insert c st.seen := by
                  simp [Cfg.has, hhas]
                have hcard : (Insert.insert c st.seen).card = st.seen.card + 1 :=
                  Finset.card_insert_of_not_mem hcseen
                have hbound : (Insert.insert c st.seen).card ≤ instrs.length := by
                  have hsub' : Insert.insert c st.seen ⊆ Finset.range instrs.length := by
                    intro x hx
                    rcases Finset.mem_insert.mp hx with hx | hx
                    · exact Finset.mem_range.mpr (hx ▸ hc)
                    · exact hsub hx
                  have := Finset.card_le_card hsub'
                  simpa [Finset.card_range] using this
                constructor
                · refine ⟨?_, ?_, ?_⟩
                  · show (cfg'.nodes.map Prod.fst).Nodup
                    rw [hkeys]; exact hnd
                  · intro k hk
                    rw [Cfg.keys] at hk
                    rw [hkeys] at hk
                    exact hmem k hk
                  · show (if st.cfg.has c then Insert.insert c st.seen
                        else st.seen) ⊆ Finset.range instrs.length
                    rw [hseen']
                    intro x hx
                    rcases Finset.mem_insert.mp hx with hx | hx
                    · exact Finset.mem_range.mpr (hx ▸ hc)
                    · exact hsub hx
                · simp only [buildPotential, Cfg.len, hq, hseen', hcard, hlen_eq,
                    List.length_cons, List.length_append]
                  omega
              · -- fresh candidate: the CFG grows
                have hseen' : (if st.cfg.has c then Insert.insert c st.seen
                    else st.seen) = st.seen := by
                  simp [Cfg.has, hhas]
                rw [if_neg hhas] at hkeys
                have hcmem : c ∉ st.cfg.nodes.map Prod.fst := fun hcm =>
                  hhas ((lookupN_isSome_iff _ _).mpr hcm)
                have hnd' : (cfg'.nodes.map Prod.fst).Nodup := by
                  rw [hkeys]
                  have h0 : (c :: st.cfg.nodes.map Prod.fst).Nodup :=
                    List.Nodup.cons hcmem hnd
                  have h1 : (([c] : List Nat) ++ st.cfg.nodes.map Prod.fst).Nodup := by
                    simpa using h0
                  exact List.nodup_append_comm.mp h1
                have hlen_eq : cfg'.nodes.length = st.cfg.nodes.length + 1 := by
                  have := congrArg List.length hkeys
                  simpa using this
                have hbound : st.cfg.nodes.length + 1 ≤ instrs.length := by
                  have : ((c :: st.cfg.nodes.map Prod.fst)).length ≤ instrs.length := by
                    refine nodup_length_le _ _ (List.Nodup.cons hcmem hnd) ?_
                    intro x hx
                    rcases List.mem_cons.mp hx with hx | hx
                    · exact hx ▸ hc
                    · exact hmem x hx
                  simpa using this
                constructor
                · refine ⟨hnd', ?_, ?_⟩
                  · intro k hk
                    rw [Cfg.keys, hkeys] at hk
                    rcases List.mem_append.mp hk with hk | hk
                    · exact hmem k hk
                    · rcases List.mem_singleton.mp hk with rfl
                      exact hc
                  · show (if st.cfg.has c then Insert.insert c st.seen
                        else st.seen) ⊆ Finset.range instrs.length
                    rw [hseen']
                    exact hsub
                · simp only [buildPotential, Cfg.len, hq, hseen', hlen_eq,
                    List.length_cons, List.length_append]
                  omega

/-- Fuel exceeding the potential always suffices for the construction
loop. -/
theorem buildLoop_isSome {instrs : List Instruction} :
    ∀ (fuel : Nat) (st : BuildState), BuildInv instrs.length st →
      buildPotential instrs.length st < fuel →
      (buildLoop instrs fuel st).isSome = true := by
  intro fuel
  induction fuel with
  | zero => intro st _ hpot; exact absurd hpot (by omega)
  | succ f ih =>
    intro st hinv hpot
    cases h : buildStep instrs st with
    | done st' => simp [buildLoop, h]
    | fail e => simp [buildLoop, h]
    | cont st' =>
      obtain ⟨hinv', hdec⟩ := buildStep_cont h hinv
      simpa [buildLoop, h] using ih st' hinv' (by omega)

/-! ## Container well-formedness (for C8 and C10) -/

/-- A lookup misses exactly when the key is absent. -/
theorem lookupN_eq_none_iff {α : Type} (l : List (Nat × α)) (k : Nat) :
    lookupN l k = none ↔ k ∉ l.map Prod.fst := by
  have h := lookupN_isSome_iff l k
  cases hl : lookupN l k with
  | none => simp [hl] at h; simp [h]
  | some v => simp [hl] at h; simp [h]

/-- Membership in a model `HashSet` after an insert. -/
theorem mem_insertS {l : List Nat} {x y : Nat} :
    x ∈ insertS l y ↔ x ∈ l ∨ x = y := by
  unfold insertS
  by_cases h : y ∈ l
  · simp only [h, if_true]
    constructor
    · exact fun hx => Or.inl hx
    · rintro (hx | rfl)
      · exact hx
      · exact h
  · simp [h]

/-- `insertS` keeps the set duplicate-free. -/
theorem nodup_insertS {l : List Nat} {y : Nat} (h : l.Nodup) :
    (insertS l y).Nodup := by
  unfold insertS
  by_cases hy : y ∈ l
  · simpa [hy] using h
  · simp only [hy, if_false]
    have h1 : (y :: l).Nodup := List.Nodup.cons hy h
    have h2 : (([y] : List Nat) ++ l).Nodup := by simpa using h1
    exact List.nodup_append_comm.mp h2

/-- `eraseS` only removes elements. -/
theorem mem_of_mem_eraseS {l : List Nat} {x y : Nat} (h : x ∈ eraseS l y) :
    x ∈ l := by
  induction l with
  | nil => simp [eraseS] at h
  | cons a rest ih =>
    by_cases ha : a = y
    · simp only [eraseS, ha, if_pos rfl] at h
      exact List.mem_cons_of_mem _ h
    · simp only [eraseS, ha, if_false] at h
      rcases List.mem_cons.mp h with rfl | h
      · exact List.mem_cons_self _ _
      · exact List.mem_cons_of_mem _ (ih h)

/-- Membership after `eraseS`, for elements other than the erased one. -/
theorem mem_eraseS_of_ne {l : List Nat} {x y : Nat} (hxy : x ≠ y) :
    x ∈ eraseS l y ↔ x ∈ l := by
  induction l with
  | nil => simp [eraseS]
  | cons a rest ih =>
    by_cases ha : a = y
    · subst ha
      simp only [eraseS, if_pos rfl]
      constructor
      · exact fun h => List.mem_cons_of_mem _ h
      · intro h
        rcases List.mem_cons.mp h with rfl | h
        · exact absurd rfl hxy
        · exact h
    · simp [eraseS, ha, ih]

/-- The erased element is gone from a duplicate-free set. -/
theorem not_mem_eraseS_self {l : List Nat} {y : Nat} (h : l.Nodup) :
    y ∉ eraseS l y := by
  induction l with
  | nil => simp [eraseS]
  | cons a rest ih =>
    rcases List.nodup_cons.mp h with ⟨ha, hrest⟩
    by_cases hay : a = y
    · subst hay
      simp only [eraseS, if_pos rfl]
      exact ha
    · simp only [eraseS, hay, if_false, List.mem_cons]
      rintro (rfl | hy)
      · exact hay rfl
      · exact ih hrest hy

/-- `eraseS` keeps the set duplicate-free. -/
theorem nodup_eraseS {l : List Nat} {y : Nat} (h : l.Nodup) :
    (eraseS l y).Nodup := by
  induction l with
  | nil => simp [eraseS]
  | cons a rest ih =>
    rcases List.nodup_cons.mp h with ⟨ha, hrest⟩
    by_cases hay : a = y
    · simpa [eraseS, hay] using hrest
    · simp only [eraseS, hay, if_false]
      refine List.nodup_cons.mpr ⟨fun hmem => ha (mem_of_mem_eraseS hmem), ih hrest⟩

/-- `eraseN` yields a sublist. -/
theorem eraseN_sublist {α : Type} (l : List (Nat × α)) (key : Nat) :
    List.Sublist (eraseN l key) l := by
  induction l with
  | nil => simp [eraseN]
  | cons p rest ih =>
    obtain ⟨a, b⟩ := p
    by_cases h : a = key
    · simp only [eraseN, if_pos h]
      exact List.sublist_cons_self _ _
    · simp only [eraseN, if_neg h]
      exact List.Sublist.cons₂ _ ih

/-- Looking up after `eraseN` on a map with distinct keys: the erased key
is gone, every other key is untouched. -/
theorem lookupN_eraseN {α : Type} {l : List (Nat × α)} {key k : Nat}
    (hnd : (l.map Prod.fst).Nodup) :
    lookupN (eraseN l key) k = if key = k then none else lookupN l k := by
  induction l with
  | nil => simp [eraseN, lookupN]
  | cons p rest ih =>
    obtain ⟨a, b⟩ := p
    simp only [List.map_cons, List.nodup_cons] at hnd
    obtain ⟨hna, hnd'⟩ := hnd
    by_cases hak : a = key
    · subst hak
      simp only [eraseN, if_pos rfl]
      by_cases hk : a = k
      · subst hk
        rw [if_pos rfl]
        exact (lookupN_eq_none_iff rest a).mpr hna
      · rw [if_neg hk]
        simp [lookupN, hk]
    · simp only [eraseN, hak, if_false]
      by_cases hk : a = k
      · subst hk
        have : ¬key = a := fun h => hak h.symm
        simp [lookupN, this]
      · simp [lookupN, hk, ih hnd']

/-- Characterization of the neighbour clean-up fold of `remove`: when it
succeeds over a duplicate-free key list, every listed key existed and is
updated by `f` exactly once, and all other keys are untouched; the key
list of the map is unchanged. -/
theorem foldUpdAll_char {M : Type} (f : Node M → Node M) :
    ∀ (ks : List Nat), ks.Nodup →
      ∀ (acc res : List (Nat × Node M)),
        ks.foldlM (updAllStep f) acc = some res →
        (∀ k, lookupN res k =
          if k ∈ ks then (lookupN acc k).map f else lookupN acc k) ∧
        (∀ k ∈ ks, (lookupN acc k).isSome = true) ∧
        res.map Prod.fst = acc.map Prod.fst := by
  intro ks
  induction ks with
  | nil =>
    intro _ acc res h
    simp only [List.foldlM_nil] at h
    obtain rfl := Option.some.inj h
    exact ⟨fun k => by simp, fun k hk => absurd hk (List.not_mem_nil k), rfl⟩
  | cons c ks ih =>
    intro hnd acc res h
    rcases List.nodup_cons.mp hnd with ⟨hc, hnd'⟩
    rw [List.foldlM_cons] at h
    cases hstep : updAllStep f acc c with
    | none => rw [hstep] at h; simp at h
    | some acc1 =>
      rw [hstep] at h
      replace h : List.foldlM (updAllStep f) acc1 ks = some res := h
      unfold updAllStep at hstep
      cases hl : lookupN acc c with
      | none => rw [hl] at hstep; exact Option.noConfusion hstep
      | some n =>
        rw [hl] at hstep
        obtain rfl := Option.some.inj hstep
        obtain ⟨hres, hall, hkeys⟩ := ih hnd' _ res h
        refine ⟨?_, ?_, ?_⟩
        · intro k
          rw [hres k, lookupN_updateN]
          by_cases hkc : k = c
          · subst hkc
            simp [hc, hl]
          · have : ¬c = k := fun hh => hkc hh.symm
            simp only [List.mem_cons, this, if_false]
            by_cases hkks : k ∈ ks <;> simp [hkks, hkc]
        · intro k hk
          rcases List.mem_cons.mp hk with rfl | hk
          · simp [hl]
          · have := hall k hk
            rw [lookupN_updateN] at this
            by_cases hck : c = k
            · subst hck; simp [hl]
            · simpa [hck] using this
        · rw [hkeys, keys_updateN]

/-- Characterization of a successful `Cfg.insert` on a non-empty graph:
the parent was a member (or is the inserted node itself), and every
resulting entry is described by `insertNodeAt`. -/
theorem Cfg.insert_char {M : Type} {g g' : Cfg M} {parent t : Nat} {m : M}
    (hne : ¬g.nodes.isEmpty = true) (hins : g.insert parent t m = some g') :
    ((lookupN g.nodes parent).isSome = true ∨ parent = t) ∧
    ∀ k, lookupN g'.nodes k = insertNodeAt g.nodes parent t m k := by
  unfold Cfg.insert at hins
  rw [if_neg hne] at hins
  cases hl : lookupN g.nodes t with
  | some n =>
    simp only [hl] at hins
    cases hp : lookupN (updateN g.nodes t fun n =>
        { n with parents := insertS n.parents parent, meta := m }) parent with
    | none => rw [hp] at hins; exact Option.noConfusion hins
    | some q =>
      rw [hp] at hins
      obtain rfl := Option.some.inj hins
      constructor
      · left
        rw [lookupN_updateN] at hp
        by_cases hpt : t = parent
        · rw [← hpt, hl]; rfl
        · rw [if_neg hpt] at hp
          rw [hp]; rfl
      · intro k
        show lookupN (updateN _ parent _) k = _
        rw [lookupN_updateN, lookupN_updateN]
        simp only [insertNodeAt]
        by_cases hpk : parent = k
        · rw [if_pos hpk, if_pos hpk]
          by_cases htk : t = k
          · rw [if_pos htk, if_pos htk]
            subst htk
            rw [hl]
            rfl
          · rw [if_neg htk, if_neg htk]
        · rw [if_neg hpk, if_neg hpk]
          by_cases htk : t = k
          · rw [if_pos htk, if_pos htk]
            subst htk
            rw [hl]
            rfl
          · rw [if_neg htk, if_neg htk]
  | none =>
    simp only [hl] at hins
    cases hp : lookupN (g.nodes ++ [(t, ⟨t, [], [parent], m⟩)]) parent with
    | none => rw [hp] at hins; exact Option.noConfusion hins
    | some q =>
      rw [hp] at hins
      obtain rfl := Option.some.inj hins
      have happ : ∀ k, lookupN (g.nodes ++ [(t, (⟨t, [], [parent], m⟩ : Node M))]) k =
          if t = k then
            match lookupN g.nodes k with
            | some v => some v
            | none => some ⟨t, [], [parent], m⟩
          else lookupN g.nodes k := by
        intro k
        rw [lookupN_append]
        by_cases htk : t = k
        · subst htk
          rw [if_pos rfl]
          cases hk : lookupN g.nodes t <;> simp [lookupN]
        · rw [if_neg htk]
          cases hk : lookupN g.nodes k <;> simp [lookupN, htk, hk]
      constructor
      · rw [happ parent] at hp
        by_cases hpt : t = parent
        · right; exact hpt.symm
        · rw [if_neg hpt] at hp
          left; rw [hp]; rfl
      · intro k
        show lookupN (updateN _ parent _) k = _
        rw [lookupN_updateN, happ k]
        simp only [insertNodeAt]
        by_cases hpk : parent = k
        · rw [if_pos hpk, if_pos hpk]
          by_cases htk : t = k
          · rw [if_pos htk, if_pos htk]
            subst htk
            rw [hl]
          · rw [if_neg htk, if_neg htk]
        · rw [if_neg hpk, if_neg hpk]
          by_cases htk : t = k
          · rw [if_pos htk, if_pos htk]
            subst htk
            rw [hl]
          · rw [if_neg htk, if_neg htk]

/-- Characterization of `Cfg.insertParentless` on a non-empty graph. -/
theorem Cfg.insertParentless_char {M : Type} (g : Cfg M) (t : Nat) (m : M)
    (hne : ¬g.nodes.isEmpty = true) :
    ∀ k, lookupN (g.insertParentless t m).nodes k =
      if t = k then
        match lookupN g.nodes t with
        | some n => some { n with meta := m }
        | none => some (⟨t, [], [], m⟩ : Node M)
      else lookupN g.nodes k := by
  intro k
  unfold Cfg.insertParentless
  rw [if_neg hne]
  cases hl : lookupN g.nodes t with
  | some n =>
    show lookupN (updateN _ t _) k = _
    rw [lookupN_updateN]
    by_cases htk : t = k
    · rw [if_pos htk, if_pos htk]
      subst htk
      rw [hl]
      rfl
    · rw [if_neg htk, if_neg htk]
  | none =>
    show lookupN (g.nodes ++ _) k = _
    rw [lookupN_append]
    by_cases htk : t = k
    · subst htk
      rw [if_pos rfl, hl]
      simp [lookupN]
    · rw [if_neg htk]
      cases hk : lookupN g.nodes k <;> simp [lookupN, htk, hk]

/-- Characterization of a successful `Cfg.remove`: the removed node is
gone, and every other node keeps its entry with the removed node erased
from its edge sets (parents side for the removed node's children,
children side for its parents). -/
theorem Cfg.remove_char {M : Type} {g g' : Cfg M} {t : Nat} {n : Node M}
    (hknd : (g.nodes.map Prod.fst).Nodup)
    (hn : lookupN g.nodes t = some n)
    (hcnd : n.children.Nodup) (hpnd : n.parents.Nodup)
    (hrem : g.remove t = some g') :
    g'.nodes.map Prod.fst = (eraseN g.nodes t).map Prod.fst ∧
    ∀ k, lookupN g'.nodes k =
      if t = k then none
      else
        (lookupN g.nodes k).map fun nk =>
          { nk with
            parents := if k ∈ n.children then eraseS nk.parents t else nk.parents,
            children := if k ∈ n.parents then eraseS nk.children t else nk.children } := by
  unfold Cfg.remove at hrem
  rw [hn] at hrem
  dsimp only at hrem
  cases h1 : n.children.foldlM
      (updAllStep fun nc => { nc with parents := eraseS nc.parents t })
      (eraseN g.nodes t) with
  | none => rw [h1] at hrem; simp at hrem
  | some nodes1 =>
    rw [h1] at hrem
    replace hrem : (do
        let nodes2 ← n.parents.foldlM
          (updAllStep fun np => { np with children := eraseS np.children t }) nodes1
        some (⟨nodes2, g.root⟩ : Cfg M)) = some g' := hrem
    cases h2 : n.parents.foldlM
        (updAllStep fun np => { np with children := eraseS np.children t }) nodes1 with
    | none => rw [h2] at hrem; simp at hrem
    | some nodes2 =>
      rw [h2] at hrem
      replace hrem : some (⟨nodes2, g.root⟩ : Cfg M) = some g' := hrem
      obtain rfl := Option.some.inj hrem
      obtain ⟨hc1, hall1, hk1⟩ := foldUpdAll_char _ n.children hcnd _ _ h1
      obtain ⟨hc2, hall2, hk2⟩ := foldUpdAll_char _ n.parents hpnd _ _ h2
      have h0 : ∀ k, lookupN (eraseN g.nodes t) k =
          if t = k then none else lookupN g.nodes k :=
        fun k => lookupN_eraseN hknd
      have htc : t ∉ n.children := by
        intro ht
        have := hall1 t ht
        rw [h0 t, if_pos rfl] at this
        simp at this
      have htp : t ∉ n.parents := by
        intro ht
        have := hall2 t ht
        rw [hc1 t] at this
        by_cases hmem : t ∈ n.children
        · exact htc hmem
        · rw [if_neg hmem, h0 t, if_pos rfl] at this
          simp at this
      refine ⟨by rw [show (⟨nodes2, g.root⟩ : Cfg M).nodes = nodes2 from rfl, hk2, hk1], ?_⟩
      intro k
      show lookupN nodes2 k = _
      rw [hc2 k, hc1 k, h0 k]
      by_cases htk : t = k
      · subst htk
        simp [htp, htc]
      · rw [if_neg htk]
        by_cases hkp : k ∈ n.parents <;> by_cases hkc : k ∈ n.children <;>
          cases hk : lookupN g.nodes k <;>
            simp [hkp, hkc, hk, htk]

/-- Membership in the old child set, unfolded. -/
theorem mem_oldCh {M : Type} {g : Cfg M} {k x : Nat} :
    x ∈ oldCh g k ↔ ∃ n0, lookupN g.nodes k = some n0 ∧ x ∈ n0.children := by
  unfold oldCh
  cases hl : lookupN g.nodes k <;> simp [hl]

/-- Membership in the old parent set, unfolded. -/
theorem mem_oldPa {M : Type} {g : Cfg M} {k x : Nat} :
    x ∈ oldPa g k ↔ ∃ n0, lookupN g.nodes k = some n0 ∧ x ∈ n0.parents := by
  unfold oldPa
  cases hl : lookupN g.nodes k <;> simp [hl]

/-- On a closed symmetric graph the totalised child/parent views agree. -/
theorem oldCh_oldPa_sym {M : Type} {g : Cfg M} (hclosed : EdgeClosed g)
    (hsym : EdgeSym g) (a b : Nat) : b ∈ oldCh g a ↔ a ∈ oldPa g b := by
  rw [mem_oldCh, mem_oldPa]
  constructor
  · rintro ⟨na, hla, hb⟩
    have hmb : (lookupN g.nodes b).isSome = true := (hclosed a na hla).1 b hb
    obtain ⟨nb, hlb⟩ := Option.isSome_iff_exists.mp hmb
    exact ⟨nb, hlb, (hsym a na b nb hla hlb).mp hb⟩
  · rintro ⟨nb, hlb, ha⟩
    have hma : (lookupN g.nodes a).isSome = true := (hclosed b nb hlb).2 a ha
    obtain ⟨na, hla⟩ := Option.isSome_iff_exists.mp hma
    exact ⟨na, hla, (hsym a na b nb hla hlb).mpr ha⟩

/-- Old child-set members are members of the graph. -/
theorem mem_oldCh_isSome {M : Type} {g : Cfg M} (hclosed : EdgeClosed g)
    {a c : Nat} (h : c ∈ oldCh g a) : (lookupN g.nodes c).isSome = true := by
  obtain ⟨n0, hl, hc⟩ := mem_oldCh.mp h
  exact (hclosed a n0 hl).1 c hc

/-- Old parent-set members are members of the graph. -/
theorem mem_oldPa_isSome {M : Type} {g : Cfg M} (hclosed : EdgeClosed g)
    {a p : Nat} (h : p ∈ oldPa g a) : (lookupN g.nodes p).isSome = true := by
  obtain ⟨n0, hl, hp⟩ := mem_oldPa.mp h
  exact (hclosed a n0 hl).2 p hp

/-- The totalised child view has no duplicates on a well-set graph. -/
theorem oldCh_nodup {M : Type} {g : Cfg M} (hsets : NodeSetsWF g) (a : Nat) :
    (oldCh g a).Nodup := by
  unfold oldCh
  cases hl : lookupN g.nodes a with
  | none => simp
  | some n0 => exact (hsets a n0 hl).1

/-- The totalised parent view has no duplicates on a well-set graph. -/
theorem oldPa_nodup {M : Type} {g : Cfg M} (hsets : NodeSetsWF g) (a : Nat) :
    (oldPa g a).Nodup := by
  unfold oldPa
  cases hl : lookupN g.nodes a with
  | none => simp
  | some n0 => exact (hsets a n0 hl).2

/-- The empty rootless graph is well-formed. -/
theorem CfgWF_newRootless (M : Type) : CfgWF (Cfg.newRootless M) := by
  refine ⟨by simp [Cfg.newRootless], ?_, ?_, ?_⟩
  · intro a na ha
    simp [Cfg.newRootless, lookupN] at ha
  · intro a na ha
    simp [Cfg.newRootless, lookupN] at ha
  · intro a na b nb ha hb
    simp [Cfg.newRootless, lookupN] at ha

/-- The one-node bootstrap graph (empty-graph branch of both inserts) is
well-formed. -/
theorem CfgWF_single {M : Type} (t : Nat) (m : M) :
    CfgWF (⟨[(t, ⟨t, [], [], m⟩)], some t⟩ : Cfg M) := by
  have hl : ∀ k, lookupN [(t, (⟨t, [], [], m⟩ : Node M))] k =
      if t = k then some ⟨t, [], [], m⟩ else none := by
    intro k
    simp [lookupN]
  refine ⟨by simp, ?_, ?_, ?_⟩
  · intro a na ha
    rw [hl a] at ha
    by_cases h : t = a
    · rw [if_pos h] at ha
      cases ha
      exact ⟨List.nodup_nil, List.nodup_nil⟩
    · rw [if_neg h] at ha
      cases ha
  · intro a na ha
    rw [hl a] at ha
    by_cases h : t = a
    · rw [if_pos h] at ha
      cases ha
      exact ⟨by simp, by simp⟩
    · rw [if_neg h] at ha
      cases ha
  · intro a na b nb ha hb
    rw [hl a] at ha
    rw [hl b] at hb
    by_cases h : t = a
    · rw [if_pos h] at ha
      cases ha
      by_cases h2 : t = b
      · rw [if_pos h2] at hb
        cases hb
        simp
      · rw [if_neg h2] at hb
        cases hb
    · rw [if_neg h] at ha
      cases ha

/-- `insert_parentless` preserves container well-formedness. -/
theorem CfgWF_insertParentless {M : Type} {g : Cfg M} (hwf : CfgWF g)
    (t : Nat) (m : M) : CfgWF (g.insertParentless t m) := by
  by_cases hne : g.nodes.isEmpty = true
  · have hres : g.insertParentless t m = ⟨[(t, ⟨t, [], [], m⟩)], some t⟩ := by
      unfold Cfg.insertParentless
      rw [if_pos hne]
    rw [hres]
    exact CfgWF_single t m
  · obtain ⟨hknd, hsets, hclosed, hsym⟩ := hwf
    have hchar := Cfg.insertParentless_char g t m hne
    have hnode : ∀ k nk, lookupN (g.insertParentless t m).nodes k = some nk →
        nk.children = oldCh g k ∧ nk.parents = oldPa g k := by
      intro k nk hk
      rw [hchar k] at hk
      by_cases htk : t = k
      · rw [if_pos htk] at hk
        subst htk
        unfold oldCh oldPa
        cases hl : lookupN g.nodes t with
        | some n0 =>
          rw [hl] at hk
          cases hk
          exact ⟨rfl, rfl⟩
        | none =>
          rw [hl] at hk
          cases hk
          exact ⟨rfl, rfl⟩
      · rw [if_neg htk] at hk
        unfold oldCh oldPa
        rw [hk]
        exact ⟨rfl, rfl⟩
    have hmemP : ∀ k, (lookupN (g.insertParentless t m).nodes k).isSome = true ↔
        ((lookupN g.nodes k).isSome = true ∨ t = k) := by
      intro k
      rw [hchar k]
      by_cases htk : t = k
      · cases hl : lookupN g.nodes t <;> simp [htk, hl]
      · simp [htk]
    refine ⟨?_, ?_, ?_, ?_⟩
    · unfold Cfg.insertParentless
      rw [if_neg hne]
      cases hl : lookupN g.nodes t with
      | some n0 =>
        show ((updateN g.nodes t fun n => { n with meta := m }).map Prod.fst).Nodup
        rw [keys_updateN]
        exact hknd
      | none =>
        have ht : t ∉ g.nodes.map Prod.fst := (lookupN_eq_none_iff _ _).mp hl
        show ((g.nodes ++ [(t, (⟨t, [], [], m⟩ : Node M))]).map Prod.fst).Nodup
        rw [List.map_append, List.nodup_append]
        refine ⟨hknd, by simp, ?_⟩
        intro a ha hb
        simp at hb
        subst hb
        exact ht ha
    · intro a na ha
      obtain ⟨h1, h2⟩ := hnode a na ha
      rw [h1, h2]
      exact ⟨oldCh_nodup hsets a, oldPa_nodup hsets a⟩
    · intro a na ha
      obtain ⟨h1, h2⟩ := hnode a na ha
      constructor
      · intro c hc
        rw [h1] at hc
        exact (hmemP c).mpr (Or.inl (mem_oldCh_isSome hclosed hc))
      · intro p hp
        rw [h2] at hp
        exact (hmemP p).mpr (Or.inl (mem_oldPa_isSome hclosed hp))
    · intro a na b nb ha hb
      obtain ⟨hA1, _⟩ := hnode a na ha
      obtain ⟨_, hB2⟩ := hnode b nb hb
      rw [hA1, hB2]
      exact oldCh_oldPa_sym hclosed hsym a b

/-- `insert` preserves container well-formedness. -/
theorem CfgWF_insert {M : Type} {g g' : Cfg M} (hwf : CfgWF g)
    {parent t : Nat} {m : M} (hins : g.insert parent t m = some g') :
    CfgWF g' := by
  by_cases hne : g.nodes.isEmpty = true
  · unfold Cfg.insert at hins
    rw [if_pos hne] at hins
    cases hins
    exact CfgWF_single t m
  · obtain ⟨hknd, hsets, hclosed, hsym⟩ := hwf
    obtain ⟨hpar, hchar⟩ := Cfg.insert_char hne hins
    have hfields : ∀ k nk, lookupN g'.nodes k = some nk →
        nk.children = (if parent = k then insertS (oldCh g k) t else oldCh g k) ∧
        nk.parents = (if t = k then insertS (oldPa g k) parent else oldPa g k) := by
      intro k nk hk
      rw [hchar k] at hk
      unfold insertNodeAt at hk
      by_cases htk : t = k
      · subst htk
        cases hl : lookupN g.nodes t with
        | some n0 =>
          by_cases hpk : parent = t
          · simp [hl, hpk] at hk
            subst hk
            simp [oldCh, oldPa, hl, hpk]
          · simp [hl, hpk] at hk
            subst hk
            simp [oldCh, oldPa, hl, hpk]
        | none =>
          by_cases hpk : parent = t
          · simp [hl, hpk] at hk
            subst hk
            simp [oldCh, oldPa, insertS, hl, hpk]
          · simp [hl, hpk] at hk
            subst hk
            simp [oldCh, oldPa, insertS, hl, hpk]
      · cases hlk : lookupN g.nodes k with
        | none =>
          by_cases hpk : parent = k <;> simp [htk, hlk, hpk] at hk
        | some nk0 =>
          by_cases hpk : parent = k
          · simp [htk, hlk, hpk] at hk
            subst hk
            simp [oldCh, oldPa, hlk, hpk, htk]
          · simp [htk, hlk, hpk] at hk
            subst hk
            simp [oldCh, oldPa, hlk, hpk, htk]
    have hmemI : ∀ k, (lookupN g'.nodes k).isSome = true ↔
        ((lookupN g.nodes k).isSome = true ∨ t = k) := by
      intro k
      rw [hchar k]
      unfold insertNodeAt
      by_cases htk : t = k
      · subst htk
        cases hl : lookupN g.nodes t <;> by_cases hpk : parent = t <;>
          simp [hl, hpk]
      · cases hlk : lookupN g.nodes k <;> by_cases hpk : parent = k <;>
          simp [htk, hlk, hpk]
    refine ⟨?_, ?_, ?_, ?_⟩
    · rw [Cfg.insert_keys hins]
      cases hl : (lookupN g.nodes t).isSome with
      | true => simpa using hknd
      | false =>
        have ht : t ∉ g.nodes.map Prod.fst := by
          rw [← lookupN_isSome_iff, hl]
          simp
        rw [if_neg (by simp : ¬(false = true)), List.nodup_append]
        refine ⟨hknd, by simp, ?_⟩
        intro a ha hb
        simp at hb
        subst hb
        exact ht ha
    · intro a na ha
      obtain ⟨h1, h2⟩ := hfields a na ha
      constructor
      · rw [h1]
        by_cases hpk : parent = a
        · rw [if_pos hpk]
          exact nodup_insertS (oldCh_nodup hsets a)
        · rw [if_neg hpk]
          exact oldCh_nodup hsets a
      · rw [h2]
        by_cases htk : t = a
        · rw [if_pos htk]
          exact nodup_insertS (oldPa_nodup hsets a)
        · rw [if_neg htk]
          exact oldPa_nodup hsets a
    · intro a na ha
      obtain ⟨h1, h2⟩ := hfields a na ha
      constructor
      · intro c hc
        rw [h1] at hc
        have hc' : c ∈ oldCh g a ∨ c = t := by
          by_cases hpk : parent = a
          · rw [if_pos hpk] at hc
            exact mem_insertS.mp hc
          · rw [if_neg hpk] at hc
            exact Or.inl hc
        rcases hc' with h | rfl
        · exact (hmemI c).mpr (Or.inl (mem_oldCh_isSome hclosed h))
        · exact (hmemI c).mpr (Or.inr rfl)
      · intro p hp
        rw [h2] at hp
        have hp' : p ∈ oldPa g a ∨ p = parent := by
          by_cases htk : t = a
          · rw [if_pos htk] at hp
            exact mem_insertS.mp hp
          · rw [if_neg htk] at hp
            exact Or.inl hp
        rcases hp' with h | rfl
        · exact (hmemI p).mpr (Or.inl (mem_oldPa_isSome hclosed h))
        · rcases hpar with h | h
          · exact (hmemI p).mpr (Or.inl h)
          · exact (hmemI p).mpr (Or.inr h.symm)
    · intro a na b nb ha hb
      obtain ⟨hcA, _⟩ := hfields a na ha
      obtain ⟨_, hpB⟩ := hfields b nb hb
      rw [hcA, hpB]
      have hL : b ∈ (if parent = a then insertS (oldCh g a) t else oldCh g a) ↔
          (b ∈ oldCh g a ∨ (parent = a ∧ b = t)) := by
        by_cases hpk : parent = a
        · rw [if_pos hpk, mem_insertS]
          simp [hpk]
        · rw [if_neg hpk]
          simp [hpk]
      have hR : a ∈ (if t = b then insertS (oldPa g b) parent else oldPa g b) ↔
          (a ∈ oldPa g b ∨ (t = b ∧ a = parent)) := by
        by_cases htb : t = b
        · rw [if_pos htb, mem_insertS]
          simp [htb]
        · rw [if_neg htb]
          simp [htb]
      rw [hL, hR, oldCh_oldPa_sym hclosed hsym a b]
      constructor
      · rintro (h | ⟨h1, h2⟩)
        · exact Or.inl h
        · exact Or.inr ⟨h2.symm, h1.symm⟩
      · rintro (h | ⟨h1, h2⟩)
        · exact Or.inl h
        · exact Or.inr ⟨h2.symm, h1.symm⟩

/-- A successful `remove` preserves container well-formedness. -/
theorem CfgWF_remove {M : Type} {g g' : Cfg M} (hwf : CfgWF g) {t : Nat}
    (hrem : g.remove t = some g') : CfgWF g' := by
  obtain ⟨hknd, hsets, hclosed, hsym⟩ := hwf
  cases hn : lookupN g.nodes t with
  | none =>
    unfold Cfg.remove at hrem
    rw [hn] at hrem
    cases hrem
  | some n =>
    obtain ⟨hcnd, hpnd⟩ := hsets t n hn
    obtain ⟨hkeys, hchar⟩ := Cfg.remove_char hknd hn hcnd hpnd hrem
    have hfields : ∀ k nk, lookupN g'.nodes k = some nk →
        t ≠ k ∧ ∃ n0, lookupN g.nodes k = some n0 ∧
          nk.children = (if k ∈ n.parents then eraseS n0.children t else n0.children) ∧
          nk.parents = (if k ∈ n.children then eraseS n0.parents t else n0.parents) := by
      intro k nk hk
      rw [hchar k] at hk
      by_cases htk : t = k
      · rw [if_pos htk] at hk
        cases hk
      · rw [if_neg htk] at hk
        cases hl : lookupN g.nodes k with
        | none =>
          rw [hl] at hk
          cases hk
        | some n0 =>
          rw [hl] at hk
          refine ⟨htk, n0, rfl, ?_, ?_⟩
          · cases hk
            rfl
          · cases hk
            rfl
    have hmemR : ∀ k, (lookupN g'.nodes k).isSome = true ↔
        (t ≠ k ∧ (lookupN g.nodes k).isSome = true) := by
      intro k
      rw [hchar k]
      by_cases htk : t = k
      · simp [htk]
      · cases hl : lookupN g.nodes k <;> simp [htk, hl]
    refine ⟨?_, ?_, ?_, ?_⟩
    · rw [hkeys]
      exact List.Nodup.sublist ((eraseN_sublist g.nodes t).map Prod.fst) hknd
    · intro a na ha
      obtain ⟨hta, n0, hl0, hcEq, hpEq⟩ := hfields a na ha
      obtain ⟨hc0, hp0⟩ := hsets a n0 hl0
      constructor
      · rw [hcEq]
        by_cases hm : a ∈ n.parents
        · rw [if_pos hm]
          exact nodup_eraseS hc0
        · rw [if_neg hm]
          exact hc0
      · rw [hpEq]
        by_cases hm : a ∈ n.children
        · rw [if_pos hm]
          exact nodup_eraseS hp0
        · rw [if_neg hm]
          exact hp0
    · intro a na ha
      obtain ⟨hta, n0, hl0, hcEq, hpEq⟩ := hfields a na ha
      obtain ⟨hc0, hp0⟩ := hsets a n0 hl0
      constructor
      · intro c hc
        rw [hcEq] at hc
        have hcold : c ∈ n0.children ∧ c ≠ t := by
          by_cases hm : a ∈ n.parents
          · rw [if_pos hm] at hc
            refine ⟨mem_of_mem_eraseS hc, ?_⟩
            intro h
            subst h
            exact not_mem_eraseS_self hc0 hc
          · rw [if_neg hm] at hc
            refine ⟨hc, ?_⟩
            intro h
            subst h
            exact hm ((hsym a n0 _ n hl0 hn).mp hc)
        exact (hmemR c).mpr ⟨fun h => hcold.2 h.symm, (hclosed a n0 hl0).1 c hcold.1⟩
      · intro p hp
        rw [hpEq] at hp
        have hpold : p ∈ n0.parents ∧ p ≠ t := by
          by_cases hm : a ∈ n.children
          · rw [if_pos hm] at hp
            refine ⟨mem_of_mem_eraseS hp, ?_⟩
            intro h
            subst h
            exact not_mem_eraseS_self hp0 hp
          · rw [if_neg hm] at hp
            refine ⟨hp, ?_⟩
            intro h
            subst h
            exact hm ((hsym _ n a n0 hn hl0).mpr hp)
        exact (hmemR p).mpr ⟨fun h => hpold.2 h.symm, (hclosed a n0 hl0).2 p hpold.1⟩
    · intro a na b nb ha hb
      obtain ⟨hta, n0a, hla, hcA, _⟩ := hfields a na ha
      obtain ⟨htb, n0b, hlb, _, hpB⟩ := hfields b nb hb
      rw [hcA, hpB]
      have hbt : b ≠ t := fun h => htb h.symm
      have hat : a ≠ t := fun h => hta h.symm
      have h1 : b ∈ (if a ∈ n.parents then eraseS n0a.children t else n0a.children) ↔
          b ∈ n0a.children := by
        by_cases hm : a ∈ n.parents
        · rw [if_pos hm]
          exact mem_eraseS_of_ne hbt
        · rw [if_neg hm]
      have h2 : a ∈ (if b ∈ n.children then eraseS n0b.parents t else n0b.parents) ↔
          a ∈ n0b.parents := by
        by_cases hm : b ∈ n.children
        · rw [if_pos hm]
          exact mem_eraseS_of_ne hat
        · rw [if_neg hm]
      rw [h1, h2]
      exact hsym a n0a b n0b hla hlb

/-- Folding container operations from any well-formed state keeps the
state well-formed (panics excluded by the `some` hypothesis). -/
theorem foldOps_wf {M : Type} :
    ∀ (ops : List (CfgOp M)) (g0 : Cfg M), CfgWF g0 →
      ∀ g, ops.foldlM applyOp g0 = some g → CfgWF g := by
  intro ops
  induction ops with
  | nil =>
    intro g0 h0 g hg
    simp only [List.foldlM_nil] at hg
    cases hg
    exact h0
  | cons op rest ih =>
    intro g0 h0 g hg
    rw [List.foldlM_cons] at hg
    cases hstep : applyOp g0 op with
    | none =>
      rw [hstep] at hg
      cases hg
    | some g1 =>
      rw [hstep] at hg
      replace hg : rest.foldlM applyOp g1 = some g := hg
      refine ih g1 ?_ g hg
      cases op with
      | ins p t m => exact CfgWF_insert h0 hstep
      | insP t m =>
        have h2 : some (g0.insertParentless t m) = some g1 := hstep
        cases h2
        exact CfgWF_insertParentless h0 t m
      | rem t => exact CfgWF_remove h0 hstep

/-- Any graph reachable by a panic-free operation sequence from the empty
graph is well-formed. -/
theorem runOps_wf {M : Type} (ops : List (CfgOp M)) (g : Cfg M)
    (h : runOps ops = some g) : CfgWF g :=
  foldOps_wf ops (Cfg.newRootless M) (CfgWF_newRootless M) g h

/-! ## C7 — termination of CFG construction -/

/-- C7 counterexample: the claim says the FIFO work queue always empties;
on `branchPastEndCode` the loop terminates through the past-the-end break
with the fallthrough pair `(0, 1)` still queued. -/
theorem C7_counterexample_queue_not_always_emptied :
    finalQueue? branchPastEndCode = some [(0, 1)] ∧
    some ([] : List (Nat × Nat)) ≠ finalQueue? branchPastEndCode := by
  decide

/-- C7 amended: instruction-level CFG construction terminates for every
finite instruction list and entry byte offset, cyclic jump targets
included: each instruction index is expanded at most twice, so `buildFuel`
(a linear bound) always suffices for `buildLoop` — though the loop need
not drain the queue, since it can exit early on a past-the-end candidate
or an offset-resolution failure, discarding the remaining pairs. -/
theorem C7_amended_cfg_construction_terminates :
    ∀ (code : GMCode), (createInstrCfg code).isSome = true := by
  intro code
  unfold createInstrCfg createInstrCfgState
  cases h : getIndexFromBytes code.instructions code.execution_offset with
  | error e => rfl
  | ok start =>
    have hinv : BuildInv code.instructions.length (buildInit start) := by
      refine ⟨?_, ?_, ?_⟩ <;> simp [buildInit, Cfg.newRootless, Cfg.keys, BuildInv]
    have hpot : buildPotential code.instructions.length (buildInit start) <
        buildFuel code.instructions := by
      simp only [buildPotential, buildInit, buildFuel, Cfg.len, Cfg.newRootless]
      simp
      omega
    have hsome := buildLoop_isSome (buildFuel code.instructions)
      (buildInit start) hinv hpot
    simpa using hsome

/-! ## C1 — pops from an empty operand stack -/

/-- C1: the claim says every pop from an empty simulated stack — the
pop-to-variable pop, the return pop and the call-argument pops included —
fails with a recoverable stack-underflow error naming the block and never
aborts uncontrolled.  The code satisfies this only for the binary-operator
pops (`.stackUnderflow 0` below names entry block 0); the pop-to-variable,
return and call-argument pops go through `Option::unwrap` and abort
uncontrolled (`.panic`), and the conditional-branch condition pop on an
empty stack is silently ignored (the block resolves successfully).  The
spec itself records the intent (§7: hard aborts on empty-stack conditions
are to become recoverable failures), so this is a bug in the code. -/
theorem C1_empty_stack_pop_aborts :
    StraightLineResolver.tryResolve 10 (singleBlockCfg 2) popOnEmptyCode {} 0
      = some (.error .panic) ∧
    StraightLineResolver.tryResolve 10 (singleBlockCfg 2) returnOnEmptyCode {} 0
      = some (.error .panic) ∧
    StraightLineResolver.tryResolve 10 (singleBlockCfg 2) callOnEmptyCode {} 0
      = some (.error .panic) ∧
    StraightLineResolver.tryResolve 10 (singleBlockCfg 2) addOnEmptyCode {} 0
      = some (.error (.stackUnderflow 0)) ∧
    StraightLineResolver.tryResolve 10 (singleBlockCfg 2) branchIfOnEmptyCode {} 0
      = some (.ok (some ⟨[0], .Resolved (.mk []), [], []⟩)) :=
  ⟨rfl, rfl, rfl, rfl, rfl⟩

/-! ## C9 — the `[push 256, push 256, add, return]` block -/

/-- C9: a block whose slice is `[push 256, push 256, add(int64,int64),
return]` resolves to `Resolved(Block([Return(Some(Binary(Add,
Constant(256), Constant(256))))]))`, consuming exactly the entry node and
inheriting its (empty) edge sets; the companion subtraction block shows
that the second-popped operand becomes the left operand and the
first-popped the right operand (`1 - 2`, not `2 - 1`). -/
theorem C9_push_push_add_return_resolves :
    StraightLineResolver.tryResolve 10 (singleBlockCfg 4) returnAddCode {} 0
      = some (.ok (some ⟨[0], .Resolved (.mk [.Return (some (.Binary
          (.Constant (.Integer 256)) .Add (.Constant (.Integer 256))))]), [], []⟩)) ∧
    StraightLineResolver.tryResolve 10 (singleBlockCfg 4) returnSubCode {} 0
      = some (.ok (some ⟨[0], .Resolved (.mk [.Return (some (.Binary
          (.Constant (.Integer 1)) .Sub (.Constant (.Integer 2))))]), [], []⟩)) :=
  ⟨rfl, rfl⟩

/-! ## C2 — revisits during CFG construction -/

/-- C2 counterexample: after five loop iterations on `tripleBranchCode`
the front of the queue is the pair `(2, 0)`, whose candidate 0 is already
a CFG member and is already in `seen_once` (it has been reached twice
before); the claim says the edge `2 → 0` is still recorded, but the final
graph has `children(2) = {3}` and `parents(0) = {1}` — the pair is
dropped entirely, edge included. -/
theorem C2_counterexample_third_visit_drops_edge :
    (buildSteps tripleBranchCode.instructions 5 (buildInit 0)).queue.head?
      = some (2, 0) ∧
    (buildSteps tripleBranchCode.instructions 5 (buildInit 0)).cfg.has 0 = true ∧
    0 ∈ (buildSteps tripleBranchCode.instructions 5 (buildInit 0)).seen ∧
    builtChildren tripleBranchCode 2 = some [3] ∧
    builtParents tripleBranchCode 0 = some [1] ∧
    (0 : Nat) ∉ ([3] : List Nat) ∧ (2 : Nat) ∉ ([1] : List Nat) := by
  decide

/-- C2 amended: a dequeued pair whose candidate is already a CFG member
and already in `seen_once` is skipped entirely — neither the edge nor the
re-expansion happens (edges are only recorded on the first and second
visits); for the self-loop input `[push(false), conditional-branch(-2)]`
construction terminates and the second visit to the branch target did
record the back edge `1 → 0`. -/
theorem C2_amended_third_visit_skipped :
    (∀ (instrs : List Instruction) (st : BuildState) (p c : Nat)
        (rest : List (Nat × Nat)),
      st.queue = (p, c) :: rest → c < instrs.length →
      st.cfg.has c = true → c ∈ st.seen →
      buildStep instrs st = .cont { st with queue := rest }) ∧
    (builtCfg? selfLoopCode).isSome = true ∧
    builtChildren selfLoopCode 0 = some [1] ∧
    builtChildren selfLoopCode 1 = some [0] := by
  refine ⟨fun instrs st p c rest hq hlt hhas hseen => ?_, by decide, by decide, by decide⟩
  simp only [buildStep, hq]
  rw [if_neg (by omega), if_pos ⟨by simp [hhas], hseen⟩]

/-- Witness for the universally quantified part of
`C2_amended_third_visit_skipped`, at the concrete skipped pair of
`tripleBranchCode`. -/
theorem C2_amended_third_visit_skipped_witness :
    buildStep tripleBranchCode.instructions
        ⟨[(2, 0)], {0}, ⟨[(0, ⟨0, [], [], ()⟩)], some 0⟩⟩
      = .cont ⟨[], {0}, ⟨[(0, ⟨0, [], [], ()⟩)], some 0⟩⟩ :=
  C2_amended_third_visit_skipped.1 tripleBranchCode.instructions
    ⟨[(2, 0)], {0}, ⟨[(0, ⟨0, [], [], ()⟩)], some 0⟩⟩ 2 0 [] rfl (by decide)
    (by decide) (by decide)

/-! ## C3 — a past-the-end candidate -/

/-- C3 counterexample: on `branchPastEndCode` the first iteration
enqueues the branch target pair `(0, 2)` ahead of the fallthrough pair
`(0, 1)`; dequeuing `(0, 2)` (candidate past the end) breaks the whole
loop, so the still-queued pair `(0, 1)` is never processed and the
reachable instruction 1 never appears in the CFG — the claim says it
still would. -/
theorem C3_counterexample_break_discards_queue :
    (buildSteps branchPastEndCode.instructions 1 (buildInit 0)).queue
      = [(0, 2), (0, 1)] ∧
    finalQueue? branchPastEndCode = some [(0, 1)] ∧
    (builtCfg? branchPastEndCode).map (fun g => g.has 1) = some false ∧
    (builtCfg? branchPastEndCode).map (fun g => g.has 0) = some true ∧
    1 < branchPastEndCode.instructions.length := by
  decide

/-- C3 amended: dequeuing a pair whose candidate is at or past the end of
the instruction stream terminates the **entire** construction loop at
once; the pairs still queued behind it are discarded with the final
state, not processed. -/
theorem C3_amended_past_end_breaks_loop :
    ∀ (instrs : List Instruction) (fuel : Nat) (st : BuildState) (p c : Nat)
      (rest : List (Nat × Nat)),
      st.queue = (p, c) :: rest → instrs.length ≤ c →
      buildLoop instrs (fuel + 1) st = some (.ok { st with queue := rest }) := by
  intro instrs fuel st p c rest hq hc
  simp only [buildLoop, buildStep, hq]
  rw [if_pos hc]

/-- Witness for `C3_amended_past_end_breaks_loop` at the concrete state
`branchPastEndCode` reaches after one iteration. -/
theorem C3_amended_past_end_breaks_loop_witness :
    buildLoop branchPastEndCode.instructions 1
        ⟨[(0, 2), (0, 1)], ∅, ⟨[(0, ⟨0, [], [], ()⟩)], some 0⟩⟩
      = some (.ok ⟨[(0, 1)], ∅, ⟨[(0, ⟨0, [], [], ()⟩)], some 0⟩⟩) :=
  C3_amended_past_end_breaks_loop branchPastEndCode.instructions 0
    ⟨[(0, 2), (0, 1)], ∅, ⟨[(0, ⟨0, [], [], ()⟩)], some 0⟩⟩ 0 2 [(0, 1)] rfl
    (by decide)

/-! ## C4 — decompile_one on a partially resolvable graph -/

/-- C4 counterexample: on `mainCode` the block CFG has two nodes; node 0
is declined by the straight-line resolver (its stored range spans at most
one instruction), yet `decompile_one` succeeds, returning only node 1's
resolved block — a successful result that silently omits a block no
resolver accepted, with no incomplete-decompilation error and no
reduction of the graph to a single resolved node. -/
theorem C4_counterexample_silent_partial_result :
    decompileOne 100 mainCode {} = some (.ok [.mk [.Return (some (.Binary
      (.Constant (.Integer 256)) .Add (.Constant (.Integer 256))))]]) ∧
    (blockCfgOf mainCode).map Cfg.len = some 2 ∧
    ((blockCfgOf mainCode).bind fun g =>
      StraightLineResolver.tryResolve 100 g mainCode {} 0) = some (.ok none) :=
  ⟨rfl, by decide, rfl⟩

/-- C4 amended: `decompile_one` applies the straight-line resolver to
each block index independently and concatenates the resolved outputs; a
block the resolver declines (`None`) is skipped silently, with no
incomplete-decompilation failure and no check that the graph reduced to a
single resolved node.  The second conjunct shows the resulting silent
partial output on `mainCode`. -/
theorem C4_amended_declined_blocks_skipped :
    (∀ (fuel : Nat) (bcfg : Cfg BlockMeta) (code : GMCode) (data : GMData)
        (i n : Nat) (acc : List ast.Block),
      StraightLineResolver.tryResolve fuel bcfg code data i = some (.ok none) →
      decompileLoop fuel bcfg code data i (n + 1) acc
        = decompileLoop fuel bcfg code data (i + 1) n acc) ∧
    decompileOne 100 mainCode {} = some (.ok [.mk [.Return (some (.Binary
      (.Constant (.Integer 256)) .Add (.Constant (.Integer 256))))]]) := by
  refine ⟨fun fuel bcfg code data i n acc h => ?_, rfl⟩
  simp only [decompileLoop, h]

/-- Witness for the universally quantified part of
`C4_amended_declined_blocks_skipped`: a single-instruction block is
declined and the loop moves on. -/
theorem C4_amended_declined_blocks_skipped_witness :
    decompileLoop 100 (singleBlockCfg 1) mainCode {} 0 1 []
      = decompileLoop 100 (singleBlockCfg 1) mainCode {} 1 0 [] :=
  C4_amended_declined_blocks_skipped.1 100 (singleBlockCfg 1) mainCode {} 0 0 [] rfl

/-! ## C5 — block metadata produced by the partitioner -/

/-- C5 counterexample: on `mainCode` the partitioner pairs trailer 1 with
leader 0 (block index 0) and trailer 6 with leader 2 (block index 1), so
the claim requires block node 0 to carry the range `[0, 2)`.  The child
insertion does write `0..2` — but the later parentless re-insertion of
node 0 (as a parent of block 1) overwrites its metadata with the default
`Range::default()`, leaving node 0 holding the empty range `0..0`. -/
theorem C5_counterexample_entry_block_empty_range :
    codeBlocks? mainCode = some [(1, 0, 0), (6, 1, 2)] ∧
    blockMetaOf? mainCode 0 = some ⟨⟨0, 0⟩, .Unresolved⟩ ∧
    blockMetaOf? mainCode 1 = some ⟨⟨2, 7⟩, .Unresolved⟩ ∧
    (⟨0, 0⟩ : RangeN) ≠ ⟨0, 2⟩ ∧
    (⟨0, 0⟩ : RangeN).stop - (⟨0, 0⟩ : RangeN).start = 0 :=
  ⟨by decide, rfl, rfl, by decide, rfl⟩

/-- C5 amended: every node of the produced block-level CFG carries
`Unresolved` metadata whose range is either the contiguous half-open
`[leader, trailer+1)` of a blocks-pairing entry whose block index is the
node itself (written when the node is inserted as a child), or the
default empty range `0..0` (written by the parentless insertion used for
parent blocks; which write survives depends on iteration order, and the
entry block can be left with the empty range, as the counterexample
shows). -/
theorem C5_amended_block_meta_provenance :
    ∀ (code : GMCode) (inCfg : Cfg Unit) (lt : List Nat × List Nat)
      (bc : Cfg BlockMeta),
      leadersTrailers code inCfg = some lt →
      instrCfgToBlockCfg code inCfg = some bc →
      ∀ k m, bc.metaOf k = some m →
        m.resolve_state = .Unresolved ∧
        (m.instr_range = ⟨0, 0⟩ ∨
          ∃ e i s, (e, (i, s)) ∈ blocksOf lt.1 lt.2 ∧ k = i ∧
            m.instr_range = ⟨s, e + 1⟩) := by
  intro code inCfg lt bc hlt hbc
  obtain ⟨leaders, trailers⟩ := lt
  unfold instrCfgToBlockCfg at hbc
  rw [hlt] at hbc
  simp only [Option.some_bind] at hbc
  refine metaOK_nodeFold (blocksOf leaders trailers) (fun x h => h) _ bc hbc ?_
  intro k m hk
  simp [Cfg.metaOf, Cfg.newRootless, lookupN] at hk

/-- Witness for `C5_amended_block_meta_provenance` at `mainCode`'s block
node 1, whose metadata is `(2..7, Unresolved)` — the range of the blocks
entry `(6, (1, 2))`. -/
theorem C5_amended_block_meta_provenance_witness :
    (⟨⟨2, 7⟩, .Unresolved⟩ : BlockMeta).resolve_state = .Unresolved ∧
    ((⟨⟨2, 7⟩, .Unresolved⟩ : BlockMeta).instr_range = ⟨0, 0⟩ ∨
      ∃ e i s, (e, (i, s)) ∈ blocksOf ([0, 2] : List Nat) [1, 6] ∧ (1 : Nat) = i ∧
        (⟨⟨2, 7⟩, .Unresolved⟩ : BlockMeta).instr_range = ⟨s, e + 1⟩) :=
  C5_amended_block_meta_provenance mainCode mainInstrCfg ([0, 2], [1, 6])
    mainBlockCfg rfl rfl 1 ⟨⟨2, 7⟩, .Unresolved⟩ rfl

/-! ## C6 — unconditional jumps inside a block -/

/-- C6 counterexample: the claim says the resolver resumes at the jump
target resolved with the same interpretation the CFG builder used, and
errors only when the target falls outside the slice.  On `backJumpCode`
the CFG builder's interpretation (`-2 * 4` bytes) resolves to index 0 —
inside the slice — yet the resolver, which passes the **raw** offset `-2`
unscaled, fails with a misalignment error instead of simulating from
index 0. -/
theorem C6_counterexample_raw_offset_differs_from_cfg :
    StraightLineResolver.tryResolve 10 (singleBlockCfg 4) backJumpCode {} 0
      = some (.error (.misaligned 6 8)) ∧
    getIndexFromByteOffset backJumpCode.instructions 2 (-2 * 4) = .ok 0 ∧
    0 < backJumpCode.instructions.length :=
  ⟨rfl, rfl, by decide⟩

/-- C6 amended: on an unconditional jump the resolver resolves the
**raw** `jump_offset` (in bytes, without the `* 4` word scaling the CFG
builder applies) against the block's own slice at the jump's local index,
resumes simulation at the resolved index **plus one** (the loop's final
`i += 1` also runs after a jump), and propagates any resolution failure
(out-of-range, misaligned, before-start) as the returned error.  The
closed conjunct shows the resulting behaviour on `forwardJumpCode`: the
raw offset 4 resolves to sub-index 1, simulation resumes at index 2, and
the block resolves to `Return(6)` with the first push still unconsumed. -/
theorem C6_amended_branch_resumes_after_raw_target :
    (∀ (data : GMData) (entry : Nat) (slice : List Instruction) (fuel i : Nat)
        (stack : List ast.Expr) (out : List ast.Statement) (o : Int),
      slice.get? i = some (.Branch o) →
      slrGo data entry slice (fuel + 1) i stack out =
        match getIndexFromByteOffset slice i o with
        | .ok t => slrGo data entry slice fuel (t + 1) stack out
        | .error e => some (.error e)) ∧
    getIndexFromByteOffset forwardJumpCode.instructions 1 4 = .ok 1 ∧
    StraightLineResolver.tryResolve 10 (singleBlockCfg 4) forwardJumpCode {} 0
      = some (.ok (some ⟨[0], .Resolved (.mk [.Return (some
          (.Constant (.Integer 6)))]), [], []⟩)) := by
  refine ⟨fun data entry slice fuel i stack out o h => ?_, rfl, rfl⟩
  simp only [slrGo, h]
  cases getIndexFromByteOffset slice i o <;> rfl

/-- Witness for the universally quantified part of
`C6_amended_branch_resumes_after_raw_target`, at `forwardJumpCode`'s
branch. -/
theorem C6_amended_branch_resumes_after_raw_target_witness :
    slrGo {} 0 forwardJumpCode.instructions 10 1
        [.Constant (.Integer 5)] [] =
      match getIndexFromByteOffset forwardJumpCode.instructions 1 4 with
      | .ok t => slrGo {} 0 forwardJumpCode.instructions 9 (t + 1)
          [.Constant (.Integer 5)] []
      | .error e => some (.error e) :=
  C6_amended_branch_resumes_after_raw_target.1 {} 0 forwardJumpCode.instructions
    9 1 [.Constant (.Integer 5)] [] 4 rfl

/-! ## C8 — edge symmetry of the CFG container -/

/-- C8: for every sequence of `insert`, `insert_parentless` and `remove`
operations on the `ControlFlowGraph` container (run from the empty graph,
none of them panicking), edge symmetry holds in the resulting graph: for
any two member nodes `a` and `b`, `b` appears in `a`'s child set exactly
when `a` appears in `b`'s parent set. -/
theorem C8_insert_remove_preserve_edge_symmetry :
    ∀ (M : Type) (ops : List (CfgOp M)) (g : Cfg M),
      runOps ops = some g → EdgeSym g := by
  intro M ops g h
  exact (runOps_wf ops g h).2.2.2

/-- Witness for `C8_insert_remove_preserve_edge_symmetry`: the sequence
root-insert 0, insert 1 under 0, insert 2 under 1, remove 1 succeeds and
its result graph (nodes 0 and 2, all edge sets empty) is edge-symmetric. -/
theorem C8_insert_remove_preserve_edge_symmetry_witness :
    runOps [CfgOp.insP 0 (), CfgOp.ins 0 1 (), CfgOp.ins 1 2 (), CfgOp.rem 1] =
      some (⟨[(0, ⟨0, [], [], ()⟩), (2, ⟨2, [], [], ()⟩)], some 0⟩ : Cfg Unit) ∧
    EdgeSym (⟨[(0, ⟨0, [], [], ()⟩), (2, ⟨2, [], [], ()⟩)], some 0⟩ : Cfg Unit) :=
  ⟨by decide,
    C8_insert_remove_preserve_edge_symmetry Unit
      [CfgOp.insP 0 (), CfgOp.ins 0 1 (), CfgOp.ins 1 2 (), CfgOp.rem 1]
      ⟨[(0, ⟨0, [], [], ()⟩), (2, ⟨2, [], [], ()⟩)], some 0⟩ (by decide)⟩

/-! ## C10 — re-inserting a member node keeps its edge sets -/

/-- C10: on a non-empty graph, re-inserting a member node `t` does not
clear or rebuild its edge sets: `insert_parentless` replaces only the
metadata, keeping the child and parent sets as they were, and
`insert parent t m` replaces the metadata and adds exactly the one new
parent edge — `parent` joins `t`'s parent set (a no-op when already
present) and `t`'s child set is unchanged except in the self-edge case
`parent = t`, where the same new edge's child side is recorded. -/
theorem C10_member_insert_keeps_edge_sets {M : Type} (g g' : Cfg M)
    (t parent : Nat) (n : Node M) (m : M)
    (hne : g.nodes.isEmpty = false)
    (hn : lookupN g.nodes t = some n)
    (hins : g.insert parent t m = some g') :
    (g.insertParentless t m).metaOf t = some m ∧
    (g.insertParentless t m).childrenOf t = some n.children ∧
    (g.insertParentless t m).parentsOf t = some n.parents ∧
    g'.metaOf t = some m ∧
    g'.parentsOf t = some (insertS n.parents parent) ∧
    g'.childrenOf t =
      some (if parent = t then insertS n.children t else n.children) := by
  have hne' : ¬g.nodes.isEmpty = true := by
    rw [hne]
    simp
  have hP := Cfg.insertParentless_char g t m hne' t
  simp only [if_pos, hn] at hP
  obtain ⟨hpar, hchar⟩ := Cfg.insert_char hne' hins
  have hI := hchar t
  unfold insertNodeAt at hI
  by_cases hpk : parent = t
  · simp [hn, hpk] at hI
    refine ⟨?_, ?_, ?_, ?_, ?_, ?_⟩ <;>
      simp [Cfg.metaOf, Cfg.childrenOf, Cfg.parentsOf, hP, hI, hpk]
  · simp [hn, hpk] at hI
    refine ⟨?_, ?_, ?_, ?_, ?_, ?_⟩ <;>
      simp [Cfg.metaOf, Cfg.childrenOf, Cfg.parentsOf, hP, hI, hpk]

/-- Witness for `C10_member_insert_keeps_edge_sets`: node 1 of a
three-node graph (child-less, with parent 0) is re-inserted under the new
parent 2; its child set stays empty, its parent set becomes `[0, 2]`. -/
theorem C10_member_insert_keeps_edge_sets_witness :
    ((⟨[(0, ⟨0, [1], [], ()⟩), (1, ⟨1, [], [0], ()⟩), (2, ⟨2, [], [], ()⟩)],
        some 0⟩ : Cfg Unit).insertParentless 1 ()).metaOf 1 = some () ∧
    ((⟨[(0, ⟨0, [1], [], ()⟩), (1, ⟨1, [], [0], ()⟩), (2, ⟨2, [], [], ()⟩)],
        some 0⟩ : Cfg Unit).insertParentless 1 ()).childrenOf 1 = some [] ∧
    ((⟨[(0, ⟨0, [1], [], ()⟩), (1, ⟨1, [], [0], ()⟩), (2, ⟨2, [], [], ()⟩)],
        some 0⟩ : Cfg Unit).insertParentless 1 ()).parentsOf 1 = some [0] ∧
    (⟨[(0, ⟨0, [1], [], ()⟩), (1, ⟨1, [], [0, 2], ()⟩), (2, ⟨2, [1], [], ()⟩)],
        some 0⟩ : Cfg Unit).metaOf 1 = some () ∧
    (⟨[(0, ⟨0, [1], [], ()⟩), (1, ⟨1, [], [0, 2], ()⟩), (2, ⟨2, [1], [], ()⟩)],
        some 0⟩ : Cfg Unit).parentsOf 1 = some [0, 2] ∧
    (⟨[(0, ⟨0, [1], [], ()⟩), (1, ⟨1, [], [0, 2], ()⟩), (2, ⟨2, [1], [], ()⟩)],
        some 0⟩ : Cfg Unit).childrenOf 1 = some [] :=
  C10_member_insert_keeps_edge_sets
    ⟨[(0, ⟨0, [1], [], ()⟩), (1, ⟨1, [], [0], ()⟩), (2, ⟨2, [], [], ()⟩)],
        some 0⟩
    ⟨[(0, ⟨0, [1], [], ()⟩), (1, ⟨1, [], [0, 2], ()⟩), (2, ⟨2, [1], [], ()⟩)],
        some 0⟩
    1 2 ⟨1, [], [0], ()⟩ () (by decide) (by decide) (by decide)

end Libgmldc
